import Mathlib

/-!
Verification of the `sevens_rain` week-based on-call scheduling engine.

This file is a shallow embedding of the Python sources
`src/sevens_rain/models.py`, `src/sevens_rain/rules.py`,
`src/sevens_rain/scheduler.py` and the storage lookup
`PlanStorage.load_previous_weeks` from `src/sevens_rain/storage.py`.

Modelling conventions:
* Python `DayType` becomes the inductive `DayType`.
* A Python dict cell `assignments[day][employee]` may be absent, or present
  with an explicit `None` value (the scheduler stores `None` on reset and on
  backtracking).  A cell is therefore `Option (Option DayType)`:
  `none` = key absent, `some none` = key present holding Python `None`,
  `some (some t)` = key present holding a real duty type.
* Dates are modelled as natural numbers (only their order is used).
* Python floats in the fairness scoring are modelled as exact rationals;
  every comparison proved about them is representation independent.
* The storage file `plan.json` read by `_should_assign_rest_instead_of_work`
  is modelled as an explicit list of stored week plans passed to the
  functions that read it.
* `metadata` holds the two keys the scheduler writes: the generation
  timestamp (an opaque string parameter) and the applied rule names.
-/

namespace SevensRain

/-- `DayType` from models.py: WORK (白), ON_CALL (听), REST (休). -/
inductive DayType where
  | WORK : DayType
  | ON_CALL : DayType
  | REST : DayType
deriving DecidableEq, Repr

open DayType

/-- `WeekPlan` from models.py.  `assignments day employee` is the dict cell
(see the cell convention in the file header).  The two metadata entries the
scheduler writes are kept as explicit fields. -/
structure WeekPlan where
  weekStart : Nat
  assignments : Nat → String → Option (Option DayType)
  generatedAt : String
  rulesApplied : List String

/-- `WeekPlan.get_assignment`: `assignments.get(day, {}).get(employee)` —
`None` both for an absent key and for a stored `None`. -/
def getAssignment (p : WeekPlan) (day : Nat) (e : String) : Option DayType :=
  (p.assignments day e).join

/-- `WeekPlan.set_assignment`: stores the value (possibly `None`) in the dict. -/
def setAssignment (p : WeekPlan) (day : Nat) (e : String) (v : Option DayType) :
    WeekPlan :=
  { p with
    assignments := fun d' e' =>
      if d' = day ∧ e' = e then some v else p.assignments d' e' }

/-- Membership test `employee in week.get_on_call_employees(day)`:
the employee's cell holds a stored `ON_CALL`. -/
def onCallMem (p : WeekPlan) (day : Nat) (e : String) : Bool :=
  getAssignment p day e == some ON_CALL

/-- `WeekPlan.get_employee_schedule`: for each of the 7 days, the stored
value if the key is present (possibly Python `None`), else `DayType.WORK`. -/
def getEmployeeSchedule (p : WeekPlan) (e : String) : List (Option DayType) :=
  (List.range 7).map fun day =>
    match p.assignments day e with
    | none => some WORK
    | some v => v

/-- A scheduling rule from rules.py: a name, an integer priority and the
`validate(employee, day, day_type, week_plan, previous_data)` predicate. -/
structure SchedulingRule where
  name : String
  priority : Nat
  validate : String → Nat → DayType → WeekPlan → List WeekPlan → Bool

/-- `DailyOnCallCoverageRule` (priority 110): always valid, enforced
structurally during assignment. -/
def dailyOnCallCoverageRule : SchedulingRule :=
  { name := "Daily On-Call Coverage Required"
    priority := 110
    validate := fun _ _ _ _ _ => true }

/-- `MinimumOnCallPerWeekRule` (priority 105): always valid, enforced
during assignment. -/
def minimumOnCallPerWeekRule : SchedulingRule :=
  { name := "Minimum One On-Call Per Week"
    priority := 105
    validate := fun _ _ _ _ _ => true }

/-- `WeekendRestAfterOnCallRule` (priority 100): forbids ON_CALL on Monday or
Tuesday after a weekend on-call last week, and on Monday after a Friday
on-call last week. -/
def weekendRestAfterOnCallRule : SchedulingRule :=
  { name := "Rest After Weekend/Friday On-Call"
    priority := 100
    validate := fun e day dt _ prev =>
      if dt != ON_CALL then true
      else
        match prev with
        | [] => true
        | lastWeek :: _ =>
          if (day == 0 || day == 1) &&
              (onCallMem lastWeek 5 e || onCallMem lastWeek 6 e) then false
          else if day == 0 && onCallMem lastWeek 4 e then false
          else true }

/-- `NoConsecutiveWeekdayRule` (priority 80): no ON_CALL on the same weekday
as last week. -/
def noConsecutiveWeekdayRule : SchedulingRule :=
  { name := "No Consecutive Same Weekday On-Call"
    priority := 80
    validate := fun e day dt _ prev =>
      if dt != ON_CALL then true
      else
        match prev with
        | [] => true
        | lastWeek :: _ => !(onCallMem lastWeek day e) }

/-- `ThursdayOnCallExtendedRestRule` (priority 85): no Monday ON_CALL after a
Thursday on-call last week. -/
def thursdayOnCallExtendedRestRule : SchedulingRule :=
  { name := "Thursday On-Call Extended Rest"
    priority := 85
    validate := fun e day dt _ prev =>
      if dt != ON_CALL then true
      else
        match prev with
        | [] => true
        | lastWeek :: _ =>
          if day == 0 && onCallMem lastWeek 3 e then false else true }

/-- `RestAfterOnCallRule` (priority 90): no ON_CALL the day after an on-call
day (all three same-week branches return False), and no Monday ON_CALL after
a Sunday on-call last week. -/
def restAfterOnCallRule : SchedulingRule :=
  { name := "Rest After On-Call"
    priority := 90
    validate := fun e day dt p prev =>
      if dt != ON_CALL then true
      else if 0 < day && getAssignment p (day - 1) e == some ON_CALL then false
      else
        match prev with
        | [] => true
        | lastWeek :: _ =>
          if day == 0 && getAssignment lastWeek 6 e == some ON_CALL then false
          else true }

/-- `DEFAULT_RULES` from rules.py: the six-rule catalog, listed in its source
order (descending priority: 110, 105, 100, 90, 85, 80). -/
def DEFAULT_RULES : List SchedulingRule :=
  [dailyOnCallCoverageRule,
   minimumOnCallPerWeekRule,
   weekendRestAfterOnCallRule,
   restAfterOnCallRule,
   thursdayOnCallExtendedRestRule,
   noConsecutiveWeekdayRule]

/-- Insert an element after every element that compares `le` to it:
the insertion step of a stable insertion sort. -/
def stableInsert {α : Type} (le : α → α → Bool) (x : α) : List α → List α
  | [] => [x]
  | y :: ys => if le y x then y :: stableInsert le x ys else x :: y :: ys

/-- A stable sort by the boolean preorder `le`, modelling Python's stable
`list.sort` / `sorted`. -/
def stableSortBy {α : Type} (le : α → α → Bool) (l : List α) : List α :=
  l.foldl (fun acc x => stableInsert le x acc) []

/-- `WeekScheduler.__init__`: `rules.sort(key=priority, reverse=True)`,
a stable descending sort by priority. -/
def sortRulesByPriority (rules : List SchedulingRule) : List SchedulingRule :=
  stableSortBy (fun a b => b.priority ≤ a.priority) rules

/-- `WeekScheduler._validate_assignment`: conjunction of every rule in the
catalog. -/
def validateAssignment (rules : List SchedulingRule) (e : String) (day : Nat)
    (dt : DayType) (p : WeekPlan) (prev : List WeekPlan) : Bool :=
  rules.all fun r => r.validate e day dt p prev

/-- `WeekScheduler._assign_mandatory_rest`: REST cells derived from the most
recent prior week: Friday on-call → Monday REST; Saturday on-call →
Monday+Tuesday REST; Sunday on-call → Monday+Tuesday REST. -/
def assignMandatoryRest (emps : List String) (p : WeekPlan)
    (prev : List WeekPlan) : WeekPlan :=
  match prev with
  | [] => p
  | lastWeek :: _ =>
    emps.foldl
      (fun q e =>
        let q := if onCallMem lastWeek 4 e then
          setAssignment q 0 e (some DayType.REST) else q
        let q := if onCallMem lastWeek 5 e then
          setAssignment (setAssignment q 0 e (some DayType.REST)) 1 e
            (some DayType.REST) else q
        let q := if onCallMem lastWeek 6 e then
          setAssignment (setAssignment q 0 e (some DayType.REST)) 1 e
            (some DayType.REST) else q
        q)
      p

/-- The same-week rest window written by `_assign_rest_after_oncall` (and
removed again by `_remove_oncall_assignment`): Mon→Tue, Tue→Wed, Wed→Thu,
Thu→Fri+Sat+Sun, Fri→Sat+Sun, Sat→Sun, Sun→nothing. -/
def restWindow : Nat → List Nat
  | 0 => [1]
  | 1 => [2]
  | 2 => [3]
  | 3 => [4, 5, 6]
  | 4 => [5, 6]
  | 5 => [6]
  | _ => []

/-- `WeekScheduler._assign_rest_after_oncall`: writes REST on the same-week
rest window of the on-call day (branch per weekday in the source). -/
def assignRestAfterOncall (p : WeekPlan) (e : String) (oncallDay : Nat) :
    WeekPlan :=
  match oncallDay with
  | 0 => setAssignment p 1 e (some DayType.REST)
  | 1 => setAssignment p 2 e (some DayType.REST)
  | 2 => setAssignment p 3 e (some DayType.REST)
  | 3 =>
    [4, 5, 6].foldl (fun q d => setAssignment q d e (some DayType.REST)) p
  | 4 =>
    [5, 6].foldl (fun q d => setAssignment q d e (some DayType.REST)) p
  | 5 => setAssignment p 6 e (some DayType.REST)
  | _ => p

/-- `WeekScheduler._remove_oncall_assignment`: stores `None` at the on-call
cell and at each rest-window cell currently holding REST. -/
def removeOncallAssignment (p : WeekPlan) (e : String) (day : Nat) : WeekPlan :=
  let p := setAssignment p day e none
  match day with
  | 0 | 1 | 2 =>
    if getAssignment p (day + 1) e == some DayType.REST then
      setAssignment p (day + 1) e none else p
  | 3 =>
    [4, 5, 6].foldl
      (fun q d => if getAssignment q d e == some DayType.REST then
        setAssignment q d e none else q) p
  | 4 =>
    [5, 6].foldl
      (fun q d => if getAssignment q d e == some DayType.REST then
        setAssignment q d e none else q) p
  | 5 =>
    if getAssignment p 6 e == some DayType.REST then
      setAssignment p 6 e none else p
  | _ => p

/-- `WeekScheduler._is_mandatory_work`: cross-week forced-work days derived
from the previous week (Thu→next Mon, Fri→next Tue, Sat/Sun→next Wed). -/
def isMandatoryWork (e : String) (day : Nat) (prev : List WeekPlan) : Bool :=
  match prev with
  | [] => false
  | lastWeek :: _ =>
    if day == 0 then onCallMem lastWeek 3 e
    else if day == 1 then onCallMem lastWeek 4 e
    else if day == 2 then onCallMem lastWeek 5 e || onCallMem lastWeek 6 e
    else false

/-- `WeekScheduler._is_mandatory_rest`: cross-week forced-rest days derived
from the previous week (Fri/Sat/Sun→Mon, Sat/Sun→Tue). -/
def isMandatoryRest (e : String) (day : Nat) (prev : List WeekPlan) : Bool :=
  match prev with
  | [] => false
  | lastWeek :: _ =>
    if day == 0 then
      onCallMem lastWeek 4 e || onCallMem lastWeek 5 e || onCallMem lastWeek 6 e
    else if day == 1 then
      onCallMem lastWeek 5 e || onCallMem lastWeek 6 e
    else false

/-- `WeekScheduler._is_mandatory_work_same_week`: same-week forced-work days
(Mon on-call→Wed, Tue→Thu, Wed→Fri). -/
def isMandatoryWorkSameWeek (e : String) (day : Nat) (p : WeekPlan) : Bool :=
  if day == 2 then getAssignment p 0 e == some DayType.ON_CALL
  else if day == 3 then getAssignment p 1 e == some DayType.ON_CALL
  else if day == 4 then getAssignment p 2 e == some DayType.ON_CALL
  else false

/-- `sum(1 for day in range(7) if get_assignment(day, e) == ON_CALL)`. -/
def currentOnCallCount (p : WeekPlan) (e : String) : Nat :=
  ∑ d ∈ Finset.range 7,
    if getAssignment p d e = some DayType.ON_CALL then 1 else 0

/-- `WeekScheduler._check_rule2_satisfied`: every employee has at least one
on-call day this week. -/
def checkRule2Satisfied (emps : List String) (p : WeekPlan) : Bool :=
  emps.all fun e => !(currentOnCallCount p e == 0)

/-- `WeekScheduler._can_assign_oncall_csp`: the cell is free, nobody is
on-call that day yet, the day is not a forced-work day (same week or cross
week), and every rule validates the assignment. -/
def canAssignOncallCsp (rules : List SchedulingRule) (emps : List String)
    (e : String) (day : Nat) (p : WeekPlan) (prev : List WeekPlan) : Bool :=
  getAssignment p day e == none &&
  emps.all (fun x => !(getAssignment p day x == some DayType.ON_CALL)) &&
  !(isMandatoryWorkSameWeek e day p) &&
  !(isMandatoryWork e day prev) &&
  validateAssignment rules e day DayType.ON_CALL p prev

/-- Inner candidate loop of `_backtrack_oncall_assignment` for one day:
try each employee in roster order, assign on-call plus its rest window,
recurse via `tryNext`, and undo on failure. -/
def btOverEmps (rules : List SchedulingRule) (emps : List String)
    (prev : List WeekPlan) (day : Nat) (tryNext : WeekPlan → Bool × WeekPlan) :
    List String → WeekPlan → Bool × WeekPlan
  | [], p => (false, p)
  | e :: rest, p =>
    if canAssignOncallCsp rules emps e day p prev then
      let p1 := assignRestAfterOncall
        (setAssignment p day e (some DayType.ON_CALL)) e day
      let r := tryNext p1
      if r.1 then r
      else btOverEmps rules emps prev day tryNext rest
        (removeOncallAssignment r.2 e day)
    else btOverEmps rules emps prev day tryNext rest p

/-- `WeekScheduler._backtrack_oncall_assignment`: depth-first search over
days 0..6.  The fuel argument only bounds the recursion depth; called with
fuel 8 from day 0 it is never exhausted. -/
def backtrackOncallAssignment (rules : List SchedulingRule)
    (emps : List String) (prev : List WeekPlan) :
    Nat → Nat → WeekPlan → Bool × WeekPlan
  | 0, _, p => (false, p)
  | fuel + 1, day, p =>
    if 7 ≤ day then (checkRule2Satisfied emps p, p)
    else
      btOverEmps rules emps prev day
        (backtrackOncallAssignment rules emps prev fuel (day + 1)) emps p

/-- Exact fraction arithmetic standing in for the Python floats of the
fairness scoring.  Every float value the scheduler manipulates is a small
decimal fraction (multiples of 0.1), so exact rationals are a faithful
model, and every comparison proved below is representation independent.
The denominator is kept positive so that comparisons by cross
multiplication are correct. -/
structure Frac where
  num : Int
  den : Nat
  denPos : 0 < den

/-- The fraction `n / d` (for a positive literal denominator). -/
def Frac.mk' (n : Int) (d : Nat) (h : 0 < d := by decide) : Frac := ⟨n, d, h⟩

/-- The integer `n` as a fraction. -/
def Frac.ofInt (n : Int) : Frac := ⟨n, 1, Nat.one_pos⟩

/-- The natural number `n` as a fraction. -/
def Frac.ofNat (n : Nat) : Frac := Frac.ofInt (Int.ofNat n)

def Frac.add (x y : Frac) : Frac :=
  ⟨x.num * y.den + y.num * x.den, x.den * y.den, Nat.mul_pos x.denPos y.denPos⟩

def Frac.sub (x y : Frac) : Frac :=
  ⟨x.num * y.den - y.num * x.den, x.den * y.den, Nat.mul_pos x.denPos y.denPos⟩

def Frac.mul (x y : Frac) : Frac :=
  ⟨x.num * y.num, x.den * y.den, Nat.mul_pos x.denPos y.denPos⟩

def Frac.abs (x : Frac) : Frac := ⟨|x.num|, x.den, x.denPos⟩

/-- `x ≤ y` by cross multiplication (denominators are positive). -/
def Frac.le (x y : Frac) : Bool := decide (x.num * y.den ≤ y.num * x.den)

/-- `x < y` by cross multiplication (denominators are positive). -/
def Frac.lt (x y : Frac) : Bool := decide (x.num * y.den < y.num * x.den)

/-- Python `min` of two floats (first argument on ties). -/
def Frac.minF (x y : Frac) : Frac := if Frac.le x y then x else y

/-- Sum of a list of fractions. -/
def Frac.sumList (l : List Frac) : Frac :=
  l.foldl Frac.add (Frac.ofInt 0)

/-- Historical factor of `_calculate_comprehensive_fairness_scores`: recency
weighted on-call count over the last (up to) 8 weeks, weight `1 - 0.1*idx`. -/
def historicalOnCallScore (e : String) (prev : List WeekPlan) : Frac :=
  Frac.sumList ((prev.take 8).enum.map fun iw =>
    Frac.mul (Frac.ofNat ((List.range 7).filter fun d =>
        onCallMem iw.2 d e).length)
      (Frac.sub (Frac.ofInt 1) (Frac.mul (Frac.ofNat iw.1) (Frac.mk' 1 10))))

/-- `WeekScheduler._calculate_recent_workload_intensity`: last-2-week
on-call counts with weights 2.0 and 1.0. -/
def recentWorkloadIntensity (e : String) (prev : List WeekPlan) : Frac :=
  match prev with
  | [] => Frac.ofInt 0
  | _ :: _ =>
    Frac.sumList ((prev.take 2).enum.map fun iw =>
      Frac.mul (Frac.ofNat ((List.range 7).filter fun d =>
          onCallMem iw.2 d e).length)
        (Frac.sub (Frac.ofInt 2) (Frac.ofNat iw.1)))

/-- Composite score of `_calculate_comprehensive_fairness_scores`:
`historical*0.5 + current_week_count*3.0 + recent_intensity*0.2`
(lower is better). -/
def compositeScore (e : String) (p : WeekPlan) (prev : List WeekPlan) : Frac :=
  Frac.add
    (Frac.add (Frac.mul (historicalOnCallScore e prev) (Frac.mk' 1 2))
      (Frac.mul (Frac.ofNat (currentOnCallCount p e)) (Frac.ofInt 3)))
    (Frac.mul (recentWorkloadIntensity e prev) (Frac.mk' 1 5))

/-- Lexicographic comparison of character lists by code point, the order
Python uses for strings. -/
def charListLe : List Char → List Char → Bool
  | [], _ => true
  | _ :: _, [] => false
  | a :: as, b :: bs =>
    if a.toNat < b.toNat then true
    else if b.toNat < a.toNat then false
    else charListLe as bs

/-- Python string `<=`: lexicographic by code point. -/
def strLe (a b : String) : Bool := charListLe a.data b.data

/-- Python `sorted` on strings: stable lexicographic sort. -/
def sortStrings (l : List String) : List String :=
  stableSortBy strLe l

/-- `WeekScheduler._select_by_fairness_score`: minimum score with tolerance
0.1, alphabetical tie-break, first element. -/
def selectByFairnessScore (emps : List String) (scores : String → Frac) :
    String :=
  match emps with
  | [] => ""
  | e :: rest =>
    let minScore := rest.foldl (fun m x => Frac.minF m (scores x)) (scores e)
    let best := (e :: rest).filter fun x =>
      Frac.le (scores x) (Frac.add minScore (Frac.mk' 1 10))
    (sortStrings best).headD ""

/-- `WeekScheduler._choose_employee_for_oncall`. -/
def chooseEmployeeForOncall (avail : List String) (p : WeekPlan)
    (prev : List WeekPlan) (needing : List String) : String :=
  match avail with
  | [e] => e
  | _ =>
    let scores : String → Frac := fun e => compositeScore e p prev
    if needing.isEmpty then selectByFairnessScore avail scores
    else
      let needingAndAvail := avail.filter fun e => needing.contains e
      if needingAndAvail.isEmpty then selectByFairnessScore avail scores
      else selectByFairnessScore needingAndAvail scores

/-- One day of `_assign_on_call_duties`: pick from the available employees
(cell free and all rules validate), otherwise the two emergency fallbacks
(first respecting rules of priority ≥ 88, then anyone with a free cell). -/
def assignOnCallDay (rules : List SchedulingRule) (emps : List String)
    (prev : List WeekPlan) (day : Nat) (st : WeekPlan × List String) :
    WeekPlan × List String :=
  let p := st.1
  let needing := st.2
  let avail := emps.filter fun e =>
    getAssignment p day e == none &&
    validateAssignment rules e day DayType.ON_CALL p prev
  if !avail.isEmpty then
    let chosen := chooseEmployeeForOncall avail p prev needing
    let p2 := assignRestAfterOncall
      (setAssignment p day chosen (some DayType.ON_CALL)) chosen day
    (p2, needing.erase chosen)
  else
    match emps.find? (fun e =>
        getAssignment p day e == none &&
        (rules.filter fun r => 88 ≤ r.priority).all fun r =>
          r.validate e day DayType.ON_CALL p prev) with
    | some e =>
      (assignRestAfterOncall (setAssignment p day e (some DayType.ON_CALL))
        e day, needing)
    | none =>
      match emps.find? (fun e => getAssignment p day e == none) with
      | some e =>
        (assignRestAfterOncall (setAssignment p day e (some DayType.ON_CALL))
          e day, needing)
      | none => (p, needing)

/-- `WeekScheduler._assign_on_call_duties`: one on-call per day over days
0..6, tracking which employees still need their weekly on-call. -/
def assignOnCallDuties (rules : List SchedulingRule) (emps : List String)
    (p : WeekPlan) (prev : List WeekPlan) : WeekPlan :=
  ((List.range 7).foldl (fun st day => assignOnCallDay rules emps prev day st)
    (p, emps)).1

/-- `PlanStorage.load_previous_weeks`: stored weeks strictly before the given
date, most recent first, limited to `count`. -/
def loadPreviousWeeks (storage : List WeekPlan) (fromDate : Nat)
    (count : Nat) : List WeekPlan :=
  (stableSortBy (fun a b => b.weekStart ≤ a.weekStart)
    (storage.filter fun w => w.weekStart < fromDate)).take count

/-- `WeekScheduler._should_assign_rest_instead_of_work`: consults the
storage file (modelled by `storage`) for the most recent stored week before
this plan's week start; REST on Monday after a stored Friday on-call. -/
def shouldAssignRestInsteadOfWork (storage : List WeekPlan) (e : String)
    (day : Nat) (p : WeekPlan) : Bool :=
  match loadPreviousWeeks storage p.weekStart 1 with
  | [] => false
  | lastWeek :: _ => day == 0 && onCallMem lastWeek 4 e

/-- `WeekScheduler._fill_remaining_days`: unassigned weekend cells become
REST; unassigned weekday cells become REST or WORK depending on the storage
lookup above. -/
def fillRemainingDays (emps : List String) (storage : List WeekPlan)
    (p : WeekPlan) : WeekPlan :=
  (List.range 7).foldl
    (fun q day =>
      emps.foldl
        (fun q2 e =>
          if getAssignment q2 day e == none then
            if 5 ≤ day then setAssignment q2 day e (some DayType.REST)
            else if shouldAssignRestInsteadOfWork storage e day q2 then
              setAssignment q2 day e (some DayType.REST)
            else setAssignment q2 day e (some DayType.WORK)
          else q2)
        q)
    p

/-- `WeekScheduler._generate_with_csp`: reset every roster cell to a stored
`None`, write the mandatory rest cells, run the backtracking search, and on
success fill the remaining cells. -/
def resetAssignments (emps : List String) (p : WeekPlan) : WeekPlan :=
  (List.range 7).foldl
    (fun q day => emps.foldl (fun q2 e => setAssignment q2 day e none) q) p

/-- `_can_assign_oncall`: all rules validate (no cell-occupancy check). -/
def canAssignOncall (rules : List SchedulingRule) (e : String) (day : Nat)
    (p : WeekPlan) (prev : List WeekPlan) : Bool :=
  validateAssignment rules e day DayType.ON_CALL p prev

/-- Employees with no on-call day this week, in roster order
(`employees_missing_oncall` in `_intelligent_rule2_compliance` and
`_ensure_minimum_oncall_per_week`). -/
def employeesMissingOncall (emps : List String) (p : WeekPlan) :
    List String :=
  emps.filter fun e =>
    (List.range 7).all fun d =>
      !(getAssignment p d e == some DayType.ON_CALL)

/-- Day scan of `_find_valid_oncall_swap`: first day where the missing
employee can take over on-call (directly, or displacing a holder with
another on-call day to WORK or REST). -/
def findValidSwapFrom (rules : List SchedulingRule) (emps : List String)
    (prev : List WeekPlan) (m : String) (p : WeekPlan) :
    List Nat → Option WeekPlan
  | [] => none
  | d :: ds =>
    if canAssignOncall rules m d p prev then
      match emps.find? (fun x =>
          getAssignment p d x == some DayType.ON_CALL) with
      | none =>
        some (assignRestAfterOncall
          (setAssignment p d m (some DayType.ON_CALL)) m d)
      | some c =>
        let cnt := ∑ dd ∈ Finset.range 7,
          if dd ≠ d ∧ getAssignment p dd c = some DayType.ON_CALL then 1
          else 0
        if cnt = 0 then findValidSwapFrom rules emps prev m p ds
        else if validateAssignment rules c d DayType.WORK p prev then
          some (assignRestAfterOncall
            (setAssignment (setAssignment p d m (some DayType.ON_CALL)) d c
              (some DayType.WORK)) m d)
        else if validateAssignment rules c d DayType.REST p prev then
          some (assignRestAfterOncall
            (setAssignment (setAssignment p d m (some DayType.ON_CALL)) d c
              (some DayType.REST)) m d)
        else findValidSwapFrom rules emps prev m p ds
    else findValidSwapFrom rules emps prev m p ds

/-- Loop of `_intelligent_rule2_compliance` over the missing employees,
stopping at the first failure. -/
def intelligentLoop (rules : List SchedulingRule) (emps : List String)
    (prev : List WeekPlan) : List String → WeekPlan → Bool × WeekPlan
  | [], p => (true, p)
  | m :: rest, p =>
    match findValidSwapFrom rules emps prev m p (List.range 7) with
    | some p2 => intelligentLoop rules emps prev rest p2
    | none => (false, p)

/-- `WeekScheduler._intelligent_rule2_compliance`. -/
def intelligentRule2Compliance (rules : List SchedulingRule)
    (emps : List String) (p : WeekPlan) (prev : List WeekPlan) :
    Bool × WeekPlan :=
  intelligentLoop rules emps prev (employeesMissingOncall emps p) p

/-- `WeekScheduler._can_assign_for_minimum_oncall`: only rules of priority
strictly above 100 are enforced. -/
def canAssignForMinimumOncall (rules : List SchedulingRule) (e : String)
    (day : Nat) (p : WeekPlan) (prev : List WeekPlan) : Bool :=
  (rules.filter fun r => 100 < r.priority).all fun r =>
    r.validate e day DayType.ON_CALL p prev

/-- First pass of the `_ensure_minimum_oncall_per_week` day scan for one
missing employee (the relaxed-rules swap attempt). -/
def ensureTryDays (rules : List SchedulingRule) (emps : List String)
    (prev : List WeekPlan) (m : String) : List Nat → WeekPlan →
    Option WeekPlan
  | [], _ => none
  | d :: ds, p =>
    if !(getAssignment p d m == none) then
      ensureTryDays rules emps prev m ds p
    else if canAssignForMinimumOncall rules m d p prev then
      match emps.find? (fun x =>
          getAssignment p d x == some DayType.ON_CALL) with
      | some c =>
        if 1 < currentOnCallCount p c then
          if (rules.filter fun r => 88 ≤ r.priority).all (fun r =>
              r.validate m d DayType.ON_CALL p prev) then
            let remaining := ∑ dd ∈ Finset.range 7,
              if dd ≠ d ∧ getAssignment p dd c = some DayType.ON_CALL then 1
              else 0
            if remaining = 0 then ensureTryDays rules emps prev m ds p
            else
              some (assignRestAfterOncall
                (setAssignment
                  (setAssignment p d m (some DayType.ON_CALL)) d c
                  (some DayType.WORK)) m d)
          else ensureTryDays rules emps prev m ds p
        else ensureTryDays rules emps prev m ds p
      | none =>
        if (rules.filter fun r => 88 ≤ r.priority).all (fun r =>
            r.validate m d DayType.ON_CALL p prev) then
          some (assignRestAfterOncall
            (setAssignment p d m (some DayType.ON_CALL)) m d)
        else ensureTryDays rules emps prev m ds p
    else ensureTryDays rules emps prev m ds p

/-- Last-resort pass of `_ensure_minimum_oncall_per_week`: take over any day
whose holder has another on-call day, respecting mandatory carryover cells
and, in this final version of the source, every rule. -/
def ensureLastResortDays (rules : List SchedulingRule) (emps : List String)
    (prev : List WeekPlan) (m : String) : List Nat → WeekPlan →
    Option WeekPlan
  | [], _ => none
  | d :: ds, p =>
    if getAssignment p d m == some DayType.ON_CALL then
      ensureLastResortDays rules emps prev m ds p
    else if getAssignment p d m == some DayType.REST &&
        isMandatoryRest m d prev then
      ensureLastResortDays rules emps prev m ds p
    else if isMandatoryWork m d prev then
      ensureLastResortDays rules emps prev m ds p
    else
      match emps.find? (fun x =>
          getAssignment p d x == some DayType.ON_CALL) with
      | some c =>
        if currentOnCallCount p c ≤ 1 then
          ensureLastResortDays rules emps prev m ds p
        else if validateAssignment rules m d DayType.ON_CALL p prev then
          some (assignRestAfterOncall
            (setAssignment (setAssignment p d m (some DayType.ON_CALL)) d c
              (some DayType.WORK)) m d)
        else ensureLastResortDays rules emps prev m ds p
      | none => ensureLastResortDays rules emps prev m ds p

/-- `available_days` / `restricted_days` analysis of
`_preemptive_rule2_protection` for one employee. -/
def availRestricted (rules : List SchedulingRule) (prev : List WeekPlan)
    (p : WeekPlan) (e : String) : Nat × List Nat :=
  (List.range 7).foldl
    (fun acc d =>
      if !(getAssignment p d e == none) then acc
      else if !((rules.filter fun r => 88 ≤ r.priority).all fun r =>
          r.validate e d DayType.ON_CALL p prev) then
        (acc.1, acc.2 ++ [d])
      else if isMandatoryWork e d prev then (acc.1, acc.2 ++ [d])
      else (acc.1 + 1, acc.2))
    (0, [])

/-- Day scan of `_preemptive_rule2_protection` for one high-risk employee:
reserve the first legal day currently held by an employee with more than one
on-call day. -/
def preemptiveDays (rules : List SchedulingRule) (emps : List String)
    (prev : List WeekPlan) (e : String) (restricted : List Nat) :
    List Nat → WeekPlan → WeekPlan
  | [], p => p
  | d :: ds, p =>
    if !(getAssignment p d e == none) then
      preemptiveDays rules emps prev e restricted ds p
    else if restricted.contains d then
      preemptiveDays rules emps prev e restricted ds p
    else if validateAssignment rules e d DayType.ON_CALL p prev then
      match emps.find? (fun x =>
          getAssignment p d x == some DayType.ON_CALL) with
      | some c =>
        if 1 < currentOnCallCount p c then
          assignRestAfterOncall
            (setAssignment (setAssignment p d e (some DayType.ON_CALL)) d c
              (some DayType.WORK)) e d
        else preemptiveDays rules emps prev e restricted ds p
      | none => preemptiveDays rules emps prev e restricted ds p
    else preemptiveDays rules emps prev e restricted ds p

/-- Loop of `_preemptive_rule2_protection` over the high-risk employees. -/
def preemptiveLoop (rules : List SchedulingRule) (emps : List String)
    (prev : List WeekPlan) : List (String × Nat × List Nat) → WeekPlan →
    WeekPlan
  | [], p => p
  | (e, avail, restricted) :: rest, p =>
    if avail = 0 then preemptiveLoop rules emps prev rest p
    else preemptiveLoop rules emps prev rest
      (preemptiveDays rules emps prev e restricted (List.range 7) p)

/-- `WeekScheduler._preemptive_rule2_protection`. -/
def preemptiveRule2Protection (rules : List SchedulingRule)
    (emps : List String) (p : WeekPlan) (prev : List WeekPlan) : WeekPlan :=
  match prev with
  | [] => p
  | _ :: _ =>
    let highRisk := (emps.map fun e => (e, availRestricted rules prev p e)
      ).filter fun x => x.2.1 ≤ 2
    let sorted := stableSortBy (fun a b => a.2.1 ≤ b.2.1) highRisk
    preemptiveLoop rules emps prev sorted p

/-- Main enforcement loop of `_ensure_minimum_oncall_per_week` over the
missing employees. -/
def enforceMissingLoop (rules : List SchedulingRule) (emps : List String)
    (prev : List WeekPlan) : List String → WeekPlan → WeekPlan
  | [], p => p
  | m :: rest, p =>
    match ensureTryDays rules emps prev m (List.range 7) p with
    | some p2 => enforceMissingLoop rules emps prev rest p2
    | none =>
      match ensureLastResortDays rules emps prev m (List.range 7) p with
      | some p2 => enforceMissingLoop rules emps prev rest p2
      | none => enforceMissingLoop rules emps prev rest p

/-- `WeekScheduler._ensure_minimum_oncall_per_week`. -/
def ensureMinimumOncallPerWeek (rules : List SchedulingRule)
    (emps : List String) (p : WeekPlan) (prev : List WeekPlan) : WeekPlan :=
  let r := intelligentRule2Compliance rules emps p prev
  let p1 := if r.1 then r.2 else preemptiveRule2Protection rules emps r.2 prev
  let missing := employeesMissingOncall emps p1
  if missing.isEmpty then p1
  else enforceMissingLoop rules emps prev missing p1

/-- `WeekScheduler._create_temp_week_plan_copy`: fresh plan holding, for the
roster employees over days 0..6, exactly the non-`None` assignments. -/
def createTempWeekPlanCopy (emps : List String) (p : WeekPlan) : WeekPlan :=
  { weekStart := p.weekStart
    generatedAt := p.generatedAt
    rulesApplied := p.rulesApplied
    assignments := fun d e =>
      if d < 7 ∧ e ∈ emps then
        match getAssignment p d e with
        | none => none
        | some v => some (some v)
      else none }

/-- `WeekScheduler._would_swap_improve_fairness`: simulate the swap on a
temporary copy and require the absolute score gap to shrink by more
than 0.2. -/
def wouldSwapImproveFairness (emps : List String) (e1 e2 : String)
    (d1 d2 : Nat) (p : WeekPlan) (prev : List WeekPlan)
    (scores : String → Frac) : Bool :=
  let temp := setAssignment
    (setAssignment
      (setAssignment (setAssignment (createTempWeekPlanCopy emps p) d1 e1 none)
        d2 e2 none) d1 e2 (some DayType.ON_CALL)) d2 e1
    (some DayType.ON_CALL)
  let new1 := compositeScore e1 temp prev
  let new2 := compositeScore e2 temp prev
  Frac.lt (Frac.abs (Frac.sub new1 new2))
    (Frac.sub (Frac.abs (Frac.sub (scores e1) (scores e2))) (Frac.mk' 1 5))

/-- `WeekScheduler._can_swap_safely`: both employees' new on-call days
validate against every rule (checked on the pre-swap plan). -/
def canSwapSafely (rules : List SchedulingRule) (e1 e2 : String) (d1 d2 : Nat)
    (p : WeekPlan) (prev : List WeekPlan) : Bool :=
  validateAssignment rules e2 d1 DayType.ON_CALL p prev &&
  validateAssignment rules e1 d2 DayType.ON_CALL p prev

/-- `WeekScheduler._perform_oncall_swap`: exchange the two on-call cells and
re-write both employees' same-week rest windows. -/
def performOncallSwap (e1 e2 : String) (d1 d2 : Nat) (p : WeekPlan) :
    WeekPlan :=
  let p := setAssignment p d1 e1 none
  let p := setAssignment p d2 e2 none
  let p := setAssignment p d1 e2 (some DayType.ON_CALL)
  let p := setAssignment p d2 e1 (some DayType.ON_CALL)
  assignRestAfterOncall (assignRestAfterOncall p e2 d1) e1 d2

/-- The `for emp in self.employees` scan of
`_optimize_fairness_post_assignment`: the last roster employee whose cell on
the given day holds ON_CALL. -/
def lastOnCallEmp (emps : List String) (p : WeekPlan) (day : Nat) :
    Option String :=
  emps.foldl
    (fun acc e =>
      if getAssignment p day e == some DayType.ON_CALL then some e else acc)
    none

/-- The double day loop of `_optimize_fairness_post_assignment`: the first
pair of days (lexicographic order) on which a swap is accepted. -/
def findFairnessSwap (rules : List SchedulingRule) (emps : List String)
    (prev : List WeekPlan) (scores : String → Frac) (p : WeekPlan) :
    Option (String × String × Nat × Nat) :=
  (List.range 7).findSome? fun d1 =>
    (List.range 7).findSome? fun d2 =>
      if d1 = d2 then none
      else
        match lastOnCallEmp emps p d1, lastOnCallEmp emps p d2 with
        | some e1, some e2 =>
          if e1 = e2 then none
          else if wouldSwapImproveFairness emps e1 e2 d1 d2 p prev scores &&
              canSwapSafely rules e1 e2 d1 d2 p prev then
            some (e1, e2, d1, d2)
          else none
        | _, _ => none

/-- Iteration loop of `_optimize_fairness_post_assignment` (at most 3
accepted swaps; scores recomputed after each swap; stop when no swap is
accepted).  Returns the plan and the number of swaps performed. -/
def optimizeLoop (rules : List SchedulingRule) (emps : List String)
    (prev : List WeekPlan) : Nat → WeekPlan → Nat → WeekPlan × Nat
  | 0, p, made => (p, made)
  | n + 1, p, made =>
    match findFairnessSwap rules emps prev
        (fun e => compositeScore e p prev) p with
    | none => (p, made)
    | some (e1, e2, d1, d2) =>
      optimizeLoop rules emps prev n (performOncallSwap e1 e2 d1 d2 p)
        (made + 1)

/-- `WeekScheduler._optimize_fairness_post_assignment`. -/
def optimizeFairnessPostAssignment (rules : List SchedulingRule)
    (emps : List String) (p : WeekPlan) (prev : List WeekPlan) :
    WeekPlan × Nat :=
  match prev with
  | [] => (p, 0)
  | _ :: _ => optimizeLoop rules emps prev 3 p 0

/-- `WeekScheduler._generate_with_csp` (fills the remaining days inside the
success branch, as the source does). -/
def generateWithCsp (rules : List SchedulingRule) (emps : List String)
    (prev : List WeekPlan) (storage : List WeekPlan) (p : WeekPlan) :
    Bool × WeekPlan :=
  let r := resetAssignments emps p
  let m := assignMandatoryRest emps r prev
  let bt := backtrackOncallAssignment rules emps prev 8 0 m
  if bt.1 then (true, fillRemainingDays emps storage bt.2)
  else (false, bt.2)

/-- `WeekScheduler.generate_week` composed with `WeekScheduler.__init__`:
sorts the rule catalog, builds the fresh plan with its metadata, tries the
CSP path, and otherwise runs the four fallback phases.  `storage` models the
`plan.json` contents read by `_should_assign_rest_instead_of_work`; `today`
models `date.today().isoformat()`. -/
def generateWeek (emps : List String) (rulesIn : List SchedulingRule)
    (weekStart : Nat) (prev : List WeekPlan) (storage : List WeekPlan)
    (today : String) : WeekPlan :=
  let rules := sortRulesByPriority rulesIn
  let plan0 : WeekPlan :=
    { weekStart := weekStart
      assignments := fun _ _ => none
      generatedAt := today
      rulesApplied := rules.map fun r => r.name }
  let csp := generateWithCsp rules emps prev storage plan0
  if csp.1 then csp.2
  else
    let p1 := assignMandatoryRest emps csp.2 prev
    let p2 := assignOnCallDuties rules emps p1 prev
    let p3 := ensureMinimumOncallPerWeek rules emps p2 prev
    let p4 := fillRemainingDays emps storage p3
    (optimizeFairnessPostAssignment rules emps p4 prev).1

/-! ### Specification-side definitions -/

/-- The fresh week plan `generate_week` starts from (empty assignment dicts,
metadata as written by the source). -/
def emptyPlan (w : Nat) (t : String) (rulesNames : List String) : WeekPlan :=
  { weekStart := w
    assignments := fun _ _ => none
    generatedAt := t
    rulesApplied := rulesNames }

/-- Number of roster employees holding ON_CALL on the given day
(the membership count behind `get_on_call_employees`). -/
def onCallCountDay (emps : List String) (p : WeekPlan) (day : Nat) : Nat :=
  (emps.filter fun e => getAssignment p day e == some DayType.ON_CALL).length

/-- Two on-call days `a < b` are compatible for one employee inside one week
under the CSP guards: `b` is outside the rest window written by `a`, and `b`
is not the same-week forced-work echo of `a` (Mon→Wed, Tue→Thu, Wed→Fri). -/
def okPair (a b : Nat) : Bool :=
  !(restWindow a).contains b && !(a ≤ 2 && b == a + 2)

/-- No employee holds ON_CALL on any day ≥ `day`. -/
def NoOnCallFrom (p : WeekPlan) (day : Nat) : Prop :=
  ∀ k, day ≤ k → ∀ e, getAssignment p k e ≠ some DayType.ON_CALL

/-- Every day below `day` has exactly one roster on-call employee, and every
on-call holder below `day` belongs to the roster. -/
def ExactlyOneBelow (emps : List String) (p : WeekPlan) (day : Nat) : Prop :=
  ∀ k, k < day → onCallCountDay emps p k = 1

/-- Each employee's on-call days are pairwise compatible (`okPair`). -/
def PairsOk (p : WeekPlan) : Prop :=
  ∀ e a b, a < b → getAssignment p a e = some DayType.ON_CALL →
    getAssignment p b e = some DayType.ON_CALL → okPair a b = true

/-- Every on-call day's rest window currently holds REST for that employee. -/
def RestObl (p : WeekPlan) : Prop :=
  ∀ e a, getAssignment p a e = some DayType.ON_CALL →
    ∀ x ∈ restWindow a, getAssignment p x e = some DayType.REST

/-- Only roster members ever hold ON_CALL. -/
def RosterOnly (emps : List String) (p : WeekPlan) : Prop :=
  ∀ k e, getAssignment p k e = some DayType.ON_CALL → e ∈ emps

/-- Search invariant of the backtracking solver at day `day`. -/
def SearchInv (emps : List String) (p : WeekPlan) (day : Nat) : Prop :=
  NoOnCallFrom p day ∧ ExactlyOneBelow emps p day ∧ PairsOk p ∧ RestObl p ∧
    RosterOnly emps p

/-- The loop body of `_assign_mandatory_rest` for one roster employee
(named so the fold can be characterised cell by cell). -/
def mrStep (lw : WeekPlan) (q : WeekPlan) (a : String) : WeekPlan :=
  let q := if onCallMem lw 4 a then
    setAssignment q 0 a (some DayType.REST) else q
  let q := if onCallMem lw 5 a then
    setAssignment (setAssignment q 0 a (some DayType.REST)) 1 a
      (some DayType.REST) else q
  let q := if onCallMem lw 6 a then
    setAssignment (setAssignment q 0 a (some DayType.REST)) 1 a
      (some DayType.REST) else q
  q

/-! ### Concrete plans used as inputs of the witnesses and counterexamples -/

/-- A previous week in which employee `A` was on-call on Thursday. -/
def planThuA : WeekPlan :=
  setAssignment (emptyPlan 93 "s" []) 3 "A" (some DayType.ON_CALL)


/-- A previous week in which employee `A` was on-call on Saturday. -/
def planSatA : WeekPlan :=
  setAssignment (emptyPlan 93 "s" []) 5 "A" (some DayType.ON_CALL)


/-- A stored week (`plan.json` contents) in which employee `B` was on-call
on Friday; its week start lies one week before week start 100. -/
def storedFriB : WeekPlan :=
  setAssignment (emptyPlan 93 "s" []) 4 "B" (some DayType.ON_CALL)


/-- A week in which `A` is on-call on Monday and Friday and `B` also on
Friday: the fairness optimizer accepts a swap on it. -/
def swapDemoPlan : WeekPlan :=
  setAssignment
    (setAssignment (setAssignment (emptyPlan 100 "t" []) 0 "A"
      (some DayType.ON_CALL)) 4 "A" (some DayType.ON_CALL)) 4 "B"
    (some DayType.ON_CALL)

/-- A previous week in which employee `A` was on-call on Friday. -/
def planFriA : WeekPlan :=
  setAssignment (emptyPlan 93 "s" []) 4 "A" (some DayType.ON_CALL)


/-! ### Basic cell lemmas -/

theorem getAssignment_set (p : WeekPlan) (d : Nat) (e : String)
    (v : Option DayType) (d' : Nat) (e' : String) :
    getAssignment (setAssignment p d e v) d' e' =
      if d' = d ∧ e' = e then v else getAssignment p d' e' := by
  by_cases h : d' = d ∧ e' = e <;>
    simp [getAssignment, setAssignment, h]

theorem weekStart_set (p : WeekPlan) (d : Nat) (e : String)
    (v : Option DayType) : (setAssignment p d e v).weekStart = p.weekStart :=
  rfl

theorem restWindow_mem (d x : Nat) (hx : x ∈ restWindow d) :
    d < x ∧ x < 7 := by
  rcases d with _ | _ | _ | _ | _ | _ | d <;>
    simp_all [restWindow] <;> omega

theorem getAssignment_assignRest (p : WeekPlan) (e : String) (d : Nat)
    (d' : Nat) (e' : String) :
    getAssignment (assignRestAfterOncall p e d) d' e' =
      if e' = e ∧ d' ∈ restWindow d then some DayType.REST
      else getAssignment p d' e' := by
  rcases d with _ | _ | _ | _ | _ | _ | d <;>
    simp only [assignRestAfterOncall, restWindow, List.foldl,
      getAssignment_set, List.mem_cons, List.mem_singleton,
      List.not_mem_nil] <;>
    by_cases he : e' = e <;>
    simp [he] <;>
    split_ifs <;> simp_all

theorem weekStart_assignRest (p : WeekPlan) (e : String) (d : Nat) :
    (assignRestAfterOncall p e d).weekStart = p.weekStart := by
  rcases d with _ | _ | _ | _ | _ | _ | d <;> rfl

theorem getAssignment_remove_other (p : WeekPlan) (e : String) (d : Nat)
    (d' : Nat) (e' : String) (he : e' ≠ e) :
    getAssignment (removeOncallAssignment p e d) d' e' =
      getAssignment p d' e' := by
  rcases d with _ | _ | _ | _ | _ | _ | d <;>
    simp only [removeOncallAssignment, List.foldl] <;>
    (repeat' split) <;>
    simp_all [getAssignment_set]

theorem getAssignment_remove_outside (p : WeekPlan) (e : String) (d : Nat)
    (d' : Nat) (hd : d' ≠ d) (hw : d' ∉ restWindow d) :
    getAssignment (removeOncallAssignment p e d) d' e =
      getAssignment p d' e := by
  rcases d with _ | _ | _ | _ | _ | _ | d <;>
    simp_all only [removeOncallAssignment, List.foldl, restWindow,
      List.mem_singleton, List.mem_cons, List.not_mem_nil, not_or] <;>
    (repeat' split) <;>
    simp_all [getAssignment_set]

theorem getAssignment_remove_self (p : WeekPlan) (e : String) (d : Nat) :
    getAssignment (removeOncallAssignment p e d) d e = none := by
  rcases d with _ | _ | _ | _ | _ | _ | d <;>
    simp only [removeOncallAssignment, List.foldl] <;>
    (repeat' split) <;>
    simp_all [getAssignment_set]

theorem getAssignment_remove_erase (p : WeekPlan) (e : String) (d : Nat)
    (d' : Nat) (e' : String) :
    getAssignment (removeOncallAssignment p e d) d' e' =
        getAssignment p d' e' ∨
      getAssignment (removeOncallAssignment p e d) d' e' = none := by
  rcases d with _ | _ | _ | _ | _ | _ | d <;>
    simp only [removeOncallAssignment, List.foldl] <;>
    (repeat' split) <;>
    simp only [getAssignment_set] <;>
    (repeat' split) <;>
    simp_all

theorem weekStart_remove (p : WeekPlan) (e : String) (d : Nat) :
    (removeOncallAssignment p e d).weekStart = p.weekStart := by
  rcases d with _ | _ | _ | _ | _ | _ | d <;>
    simp only [removeOncallAssignment, List.foldl] <;>
    (repeat' split) <;> rfl

/-- Combined effect of one on-call assignment in the solver:
ON_CALL on the chosen cell, REST on its rest window, all else unchanged. -/
theorem getAssignment_assignOc (p : WeekPlan) (e : String) (day : Nat)
    (d' : Nat) (e' : String) :
    getAssignment (assignRestAfterOncall
        (setAssignment p day e (some DayType.ON_CALL)) e day) d' e' =
      if e' = e ∧ d' ∈ restWindow day then some DayType.REST
      else if d' = day ∧ e' = e then some DayType.ON_CALL
      else getAssignment p d' e' := by
  rw [getAssignment_assignRest]
  by_cases h : e' = e ∧ d' ∈ restWindow day <;> simp [h, getAssignment_set]

/-! ### Finite combinatorial facts about rest windows -/

theorem okPair_no_triple : ∀ a b c : Fin 7, a.val < b.val → b.val < c.val →
    okPair a.val b.val = true → okPair a.val c.val = true →
    okPair b.val c.val = true → False := by
  decide

theorem okPair_window_disjoint : ∀ a b x : Fin 7, a.val < b.val →
    okPair a.val b.val = true → x.val ∈ restWindow a.val →
    x.val ∈ restWindow b.val → False := by
  decide

theorem okPair_not_window (a b : Nat) (h : okPair a b = true) :
    b ∉ restWindow a := by
  simp [okPair] at h
  exact h.1

theorem okPair_not_mw (a b : Nat) (h : okPair a b = true) :
    ¬(a ≤ 2 ∧ b = a + 2) := by
  simp [okPair] at h
  rintro ⟨h2, hb⟩
  rcases h.2 with h3 | h3
  · omega
  · exact h3 hb

theorem okPair_intro (a b : Nat) (hw : b ∉ restWindow a)
    (hm : ¬(a ≤ 2 ∧ b = a + 2)) : okPair a b = true := by
  simp [okPair]
  refine ⟨hw, ?_⟩
  rcases Nat.lt_or_ge 2 a with h2 | h2
  · exact Or.inl h2
  · exact Or.inr fun hb => hm ⟨h2, hb⟩

theorem two_le_filter_length {α : Type} (l : List α) (pr : α → Bool)
    (a b : α) (ha : a ∈ l) (hb : b ∈ l) (hab : a ≠ b)
    (hpa : pr a = true) (hpb : pr b = true) :
    2 ≤ (l.filter pr).length := by
  have ha2 : a ∈ l.filter pr := List.mem_filter.2 ⟨ha, hpa⟩
  have hb2 : b ∈ l.filter pr := List.mem_filter.2 ⟨hb, hpb⟩
  rcases hl : l.filter pr with _ | ⟨x, _ | ⟨y, t⟩⟩
  · rw [hl] at ha2; simp at ha2
  · rw [hl] at ha2 hb2
    simp at ha2 hb2
    exact absurd (ha2.trans hb2.symm) hab
  · simp

theorem filter_singleton_of_count {α : Type} [DecidableEq α] (l : List α)
    (a : α) (hnd : l.Nodup) (ha : a ∈ l) (pr : α → Bool)
    (hpr : ∀ x ∈ l, pr x = true ↔ x = a) :
    (l.filter pr).length = 1 := by
  have hcongr : l.filter pr = l.filter (fun x => x == a) := by
    apply List.filter_congr
    intro x hx
    by_cases hxa : x = a
    · subst hxa
      simp [(hpr x hx).2 rfl]
    · rw [beq_eq_false_iff_ne.2 hxa]
      rcases h : pr x with _ | _
      · rfl
      · exact absurd ((hpr x hx).1 h) hxa
  rw [hcongr, ← List.countP_eq_length_filter]
  have hc : l.countP (fun x => x == a) = l.count a := rfl
  rw [hc]
  exact List.count_eq_one_of_mem hnd ha

end SevensRain

namespace SevensRain

theorem canAssign_parts (rules : List SchedulingRule) (emps : List String)
    (e : String) (day : Nat) (p : WeekPlan) (prev : List WeekPlan)
    (h : canAssignOncallCsp rules emps e day p prev = true) :
    getAssignment p day e = none ∧ isMandatoryWorkSameWeek e day p = false := by
  simp only [canAssignOncallCsp, Bool.and_eq_true, beq_iff_eq,
    Bool.not_eq_true'] at h
  exact ⟨h.1.1.1.1, h.1.1.2⟩

theorem onCallCountDay_congr (emps : List String) (p q : WeekPlan) (k : Nat)
    (h : ∀ x ∈ emps, getAssignment q k x = getAssignment p k x) :
    onCallCountDay emps q k = onCallCountDay emps p k := by
  unfold onCallCountDay
  have : emps.filter (fun x => getAssignment q k x == some DayType.ON_CALL) =
      emps.filter (fun x => getAssignment p k x == some DayType.ON_CALL) := by
    apply List.filter_congr
    intro x hx
    rw [h x hx]
  rw [this]

theorem searchInv_assign (rules : List SchedulingRule) (emps : List String)
    (prev : List WeekPlan) (e : String) (day : Nat) (p : WeekPlan)
    (hnd : emps.Nodup) (he : e ∈ emps) (hday : day < 7)
    (hcan : canAssignOncallCsp rules emps e day p prev = true)
    (hinv : SearchInv emps p day) :
    SearchInv emps
      (assignRestAfterOncall (setAssignment p day e (some DayType.ON_CALL))
        e day) (day + 1) := by
  obtain ⟨hno, hone, hpairs, hrest, hros⟩ := hinv
  obtain ⟨hfree, hmw⟩ := canAssign_parts rules emps e day p prev hcan
  set q := assignRestAfterOncall (setAssignment p day e (some DayType.ON_CALL))
    e day with hq
  have hchar : ∀ d' e'', getAssignment q d' e'' = some DayType.ON_CALL →
      (d' = day ∧ e'' = e) ∨ getAssignment p d' e'' = some DayType.ON_CALL := by
    intro d' e'' hd'
    rw [hq, getAssignment_assignOc] at hd'
    split_ifs at hd' with h1 h2
    · exact absurd hd' (by simp)
    · exact Or.inl h2
    · exact Or.inr hd'
  refine ⟨?_, ?_, ?_, ?_, ?_⟩
  · -- NoOnCallFrom
    intro k hk e''
    rw [hq, getAssignment_assignOc]
    split_ifs with h1 h2
    · simp
    · exact absurd h2.1 (by omega)
    · exact hno k (by omega) e''
  · -- ExactlyOneBelow
    intro k hk
    by_cases hkd : k = day
    · subst hkd
      unfold onCallCountDay
      apply filter_singleton_of_count emps e hnd he
      intro x hx
      constructor
      · intro hpx
        have hOC : getAssignment q k x = some DayType.ON_CALL := by
          simpa using hpx
        rcases hchar k x hOC with ⟨-, h2⟩ | h2
        · exact h2
        · exact absurd h2 (hno k (Nat.le_refl k) x)
      · intro hxe
        subst hxe
        have : getAssignment q k x = some DayType.ON_CALL := by
          rw [hq, getAssignment_assignOc]
          have : k ∉ restWindow k := fun hm =>
            absurd (restWindow_mem k k hm).1 (by omega)
          simp [this]
        simp [this]
    · have hkd2 : k < day := by omega
      have : onCallCountDay emps q k = onCallCountDay emps p k := by
        apply onCallCountDay_congr
        intro x hx
        rw [hq, getAssignment_assignOc]
        have h1 : ¬(x = e ∧ k ∈ restWindow day) := by
          rintro ⟨-, hm⟩
          exact absurd (restWindow_mem day k hm).1 (by omega)
        have h2 : ¬(k = day ∧ x = e) := by
          rintro ⟨h, -⟩
          exact hkd h
        simp [h1, h2]
      rw [this]
      exact hone k (by omega)
  · -- PairsOk
    intro e'' a b hab ha hb
    rcases hchar a e'' ha with ⟨had, -⟩ | hpa
    · rcases hchar b e'' hb with ⟨hbd, -⟩ | hpb
      · omega
      · exact absurd hpb (hno b (by omega) e'')
    · rcases hchar b e'' hb with ⟨hbd, hbe⟩ | hpb
      · rw [hbd]
        apply okPair_intro
        · intro hmem
          have hR := hrest e'' a hpa day hmem
          rw [hbe, hfree] at hR
          exact Option.noConfusion hR
        · rintro ⟨h2, hb2⟩
          rw [hb2] at hmw
          have hpa2 : getAssignment p a e = some DayType.ON_CALL := hbe ▸ hpa
          interval_cases a <;> simp [isMandatoryWorkSameWeek] at hmw <;>
            simp_all
      · exact hpairs e'' a b hab hpa hpb
  · -- RestObl
    intro e'' a ha x hx
    rcases hchar a e'' ha with ⟨had, hae⟩ | hpa
    · rw [hq, getAssignment_assignOc]
      rw [had] at hx
      simp [hx, hae]
    · have hr := hrest e'' a hpa x hx
      rw [hq, getAssignment_assignOc]
      split_ifs with h1 h2
      · rfl
      · exfalso
        obtain ⟨hxday, hxe⟩ := h2
        rw [hxday, hxe, hfree] at hr
        exact Option.noConfusion hr
      · exact hr
  · -- RosterOnly
    intro k x hOC
    rcases hchar k x hOC with ⟨-, hxe⟩ | h2
    · rw [hxe]; exact he
    · exact hros k x h2

theorem searchInv_remove (emps : List String) (e : String) (day : Nat)
    (p : WeekPlan) (hday : day < 7)
    (hoc : getAssignment p day e = some DayType.ON_CALL)
    (hinv : SearchInv emps p (day + 1)) :
    SearchInv emps (removeOncallAssignment p e day) day := by
  obtain ⟨hno, hone, hpairs, hrest, hros⟩ := hinv
  have he : e ∈ emps := hros day e hoc
  have huniq : ∀ x, getAssignment p day x = some DayType.ON_CALL → x = e := by
    intro x hx
    by_contra hne
    have h2 := two_le_filter_length emps
      (fun y => getAssignment p day y == some DayType.ON_CALL) x e
      (hros day x hx) he hne (by simp [hx]) (by simp [hoc])
    have h1 := hone day (Nat.lt_succ_self day)
    unfold onCallCountDay at h1
    omega
  have herase : ∀ d' e'',
      getAssignment (removeOncallAssignment p e day) d' e'' =
        some DayType.ON_CALL →
      getAssignment p d' e'' = some DayType.ON_CALL := by
    intro d' e'' h
    rcases getAssignment_remove_erase p e day d' e'' with h2 | h2
    · rw [← h2]; exact h
    · rw [h] at h2; exact Option.noConfusion h2
  refine ⟨?_, ?_, ?_, ?_, ?_⟩
  · -- NoOnCallFrom
    intro k hk x
    by_cases hkd : k = day
    · by_cases hxe : x = e
      · rw [hkd, hxe, getAssignment_remove_self]
        simp
      · intro hOC
        have hp := herase k x hOC
        rw [hkd] at hp
        exact hxe (huniq x hp)
    · intro hOC
      exact absurd (herase k x hOC) (hno k (by omega) x)
  · -- ExactlyOneBelow
    intro k hk
    have hcong : onCallCountDay emps (removeOncallAssignment p e day) k =
        onCallCountDay emps p k := by
      apply onCallCountDay_congr
      intro x hx
      by_cases hxe : x = e
      · rw [hxe]
        apply getAssignment_remove_outside
        · omega
        · intro hmem
          exact absurd (restWindow_mem day k hmem).1 (by omega)
      · exact getAssignment_remove_other p e day k x hxe
    rw [hcong]
    exact hone k (by omega)
  · -- PairsOk
    intro e'' a b hab ha hb
    exact hpairs e'' a b hab (herase a e'' ha) (herase b e'' hb)
  · -- RestObl
    intro e'' a ha x hx
    have hpa := herase a e'' ha
    by_cases he'' : e'' = e
    · have haday : a ≠ day := by
        intro haeq
        rw [haeq, he'', getAssignment_remove_self] at ha
        exact Option.noConfusion ha
      have halt : a < day := by
        by_contra hge
        exact absurd hpa (hno a (by omega) e'')
      have hok : okPair a day = true := by
        have := hpairs e a day halt (he'' ▸ hpa) hoc
        exact this
      have hxday : x ≠ day := by
        intro hxd
        exact (okPair_not_window a day hok) (hxd ▸ hx)
      have hxw : x ∉ restWindow day := by
        intro hxw2
        exact okPair_window_disjoint ⟨a, by omega⟩ ⟨day, hday⟩
          ⟨x, (restWindow_mem a x hx).2⟩ halt hok hx hxw2
      rw [he'', getAssignment_remove_outside p e day x hxday hxw]
      rw [he''] at hpa
      exact hrest e a hpa x hx
    · rw [getAssignment_remove_other p e day x e'' he'']
      exact hrest e'' a hpa x hx
  · -- RosterOnly
    intro k x hOC
    exact hros k x (herase k x hOC)

theorem assignOc_below (p : WeekPlan) (e : String) (day k : Nat) (e' : String)
    (hk : k < day) :
    getAssignment (assignRestAfterOncall
      (setAssignment p day e (some DayType.ON_CALL)) e day) k e' =
      getAssignment p k e' := by
  rw [getAssignment_assignOc]
  have h1 : ¬(e' = e ∧ k ∈ restWindow day) := by
    rintro ⟨-, hm⟩
    exact absurd (restWindow_mem day k hm).1 (by omega)
  have h2 : ¬(k = day ∧ e' = e) := by
    rintro ⟨h, -⟩
    omega
  simp [h1, h2]

theorem remove_below (p : WeekPlan) (e : String) (day k : Nat) (e' : String)
    (hk : k < day) :
    getAssignment (removeOncallAssignment p e day) k e' =
      getAssignment p k e' := by
  by_cases he' : e' = e
  · rw [he']
    exact getAssignment_remove_outside p e day k (by omega)
      (fun hm => absurd (restWindow_mem day k hm).1 (by omega))
  · exact getAssignment_remove_other p e day k e' he'

theorem btOverEmps_spec (rules : List SchedulingRule) (emps : List String)
    (prev : List WeekPlan) (day : Nat) (tryNext : WeekPlan → Bool × WeekPlan)
    (hnd : emps.Nodup) (hday : day < 7)
    (hnext : ∀ q, SearchInv emps q (day + 1) →
      (∀ k e', k ≤ day →
        getAssignment (tryNext q).2 k e' = getAssignment q k e') ∧
      ((tryNext q).1 = true → SearchInv emps (tryNext q).2 7 ∧
        checkRule2Satisfied emps (tryNext q).2 = true) ∧
      ((tryNext q).1 = false → SearchInv emps (tryNext q).2 (day + 1))) :
    ∀ cand, (∀ x ∈ cand, x ∈ emps) → ∀ p, SearchInv emps p day →
      (∀ k e', k < day →
        getAssignment
          (btOverEmps rules emps prev day tryNext cand p).2 k e' =
          getAssignment p k e') ∧
      ((btOverEmps rules emps prev day tryNext cand p).1 = true →
        SearchInv emps (btOverEmps rules emps prev day tryNext cand p).2 7 ∧
        checkRule2Satisfied emps
          (btOverEmps rules emps prev day tryNext cand p).2 = true) ∧
      ((btOverEmps rules emps prev day tryNext cand p).1 = false →
        SearchInv emps (btOverEmps rules emps prev day tryNext cand p).2
          day) := by
  intro cand
  induction cand with
  | nil =>
    intro hsub p hinv
    exact ⟨fun _ _ _ => rfl, fun h => by simp [btOverEmps] at h,
      fun _ => hinv⟩
  | cons e rest ih =>
    intro hsub p hinv
    by_cases hc : canAssignOncallCsp rules emps e day p prev = true
    · have hinv1 := searchInv_assign rules emps prev e day p hnd
        (hsub e (by simp)) hday hc hinv
      obtain ⟨hfr, hsucc, hfail⟩ := hnext _ hinv1
      by_cases hr1 : (tryNext (assignRestAfterOncall
          (setAssignment p day e (some DayType.ON_CALL)) e day)).1 = true
      · have hres : btOverEmps rules emps prev day tryNext (e :: rest) p =
            tryNext (assignRestAfterOncall
              (setAssignment p day e (some DayType.ON_CALL)) e day) := by
          simp only [btOverEmps]
          rw [if_pos hc, if_pos hr1]
        rw [hres]
        refine ⟨?_, fun _ => hsucc hr1, fun hf => absurd hr1 (by simp [hf])⟩
        intro k e' hk
        rw [hfr k e' (by omega), assignOc_below p e day k e' hk]
      · have hr1f : (tryNext (assignRestAfterOncall
            (setAssignment p day e (some DayType.ON_CALL)) e day)).1 =
            false := by
          simpa using hr1
        have hres : btOverEmps rules emps prev day tryNext (e :: rest) p =
            btOverEmps rules emps prev day tryNext rest
              (removeOncallAssignment (tryNext (assignRestAfterOncall
                (setAssignment p day e (some DayType.ON_CALL)) e day)).2
                e day) := by
          simp only [btOverEmps]
          rw [if_pos hc, if_neg (by simp [hr1f])]
        have hocd : getAssignment (tryNext (assignRestAfterOncall
            (setAssignment p day e (some DayType.ON_CALL)) e day)).2 day e =
            some DayType.ON_CALL := by
          rw [hfr day e (Nat.le_refl day), getAssignment_assignOc]
          have hnw : day ∉ restWindow day := fun hm =>
            absurd (restWindow_mem day day hm).1 (by omega)
          simp [hnw]
        have hinv2 := searchInv_remove emps e day _ hday hocd (hfail hr1f)
        obtain ⟨ihfr, ihsucc, ihfail⟩ :=
          ih (fun x hx => hsub x (by simp [hx])) _ hinv2
        rw [hres]
        refine ⟨?_, ihsucc, ihfail⟩
        intro k e' hk
        rw [ihfr k e' hk, remove_below _ e day k e' hk,
          hfr k e' (by omega), assignOc_below p e day k e' hk]
    · have hres : btOverEmps rules emps prev day tryNext (e :: rest) p =
          btOverEmps rules emps prev day tryNext rest p := by
        simp [btOverEmps, hc]
      rw [hres]
      exact ih (fun x hx => hsub x (by simp [hx])) p hinv

theorem backtrack_spec (rules : List SchedulingRule) (emps : List String)
    (prev : List WeekPlan) (hnd : emps.Nodup) :
    ∀ fuel day p, day ≤ 7 → SearchInv emps p day →
      (∀ k e', k < day →
        getAssignment
          (backtrackOncallAssignment rules emps prev fuel day p).2 k e' =
          getAssignment p k e') ∧
      ((backtrackOncallAssignment rules emps prev fuel day p).1 = true →
        SearchInv emps
          (backtrackOncallAssignment rules emps prev fuel day p).2 7 ∧
        checkRule2Satisfied emps
          (backtrackOncallAssignment rules emps prev fuel day p).2 = true) ∧
      ((backtrackOncallAssignment rules emps prev fuel day p).1 = false →
        SearchInv emps
          (backtrackOncallAssignment rules emps prev fuel day p).2 day) := by
  intro fuel
  induction fuel with
  | zero =>
    intro day p hday hinv
    exact ⟨fun _ _ _ => rfl,
      fun h => by simp [backtrackOncallAssignment] at h, fun _ => hinv⟩
  | succ fuel ih =>
    intro day p hday hinv
    by_cases h7 : 7 ≤ day
    · have hday7 : day = 7 := Nat.le_antisymm hday h7
      have hres : backtrackOncallAssignment rules emps prev (fuel + 1) day p =
          (checkRule2Satisfied emps p, p) := by
        simp only [backtrackOncallAssignment]
        rw [if_pos h7]
      rw [hres]
      refine ⟨fun _ _ _ => rfl, ?_, fun _ => hinv⟩
      intro hcheck
      subst hday7
      exact ⟨hinv, hcheck⟩
    · have hlt : day < 7 := by omega
      have hres : backtrackOncallAssignment rules emps prev (fuel + 1) day p =
          btOverEmps rules emps prev day
            (backtrackOncallAssignment rules emps prev fuel (day + 1))
            emps p := by
        simp only [backtrackOncallAssignment, if_neg h7]
      rw [hres]
      exact btOverEmps_spec rules emps prev day _ hnd hlt
        (fun q hq => by
          obtain ⟨h1, h2, h3⟩ := ih (day + 1) q (by omega) hq
          exact ⟨fun k e' hk => h1 k e' (by omega), h2, h3⟩)
        emps (fun x hx => hx) p hinv

theorem searchInv_zero (emps : List String) (p : WeekPlan)
    (h0 : ∀ d e, getAssignment p d e ≠ some DayType.ON_CALL) :
    SearchInv emps p 0 :=
  ⟨fun k _ e => h0 k e,
   fun k hk => absurd hk (Nat.not_lt_zero k),
   fun e a b _ ha => absurd ha (h0 a e),
   fun e a ha => absurd ha (h0 a e),
   fun k e h => absurd h (h0 k e)⟩

theorem count_eq_filter_card (p : WeekPlan) (e : String) :
    currentOnCallCount p e = ((Finset.range 7).filter
      (fun d => getAssignment p d e = some DayType.ON_CALL)).card := by
  unfold currentOnCallCount
  rw [Finset.card_filter]

theorem pairsOk_no_three (p : WeekPlan) (hp : PairsOk p) (e : String)
    (a b c : Nat) (ha7 : a < 7) (hb7 : b < 7) (hc7 : c < 7)
    (hOCa : getAssignment p a e = some DayType.ON_CALL)
    (hOCb : getAssignment p b e = some DayType.ON_CALL)
    (hOCc : getAssignment p c e = some DayType.ON_CALL)
    (hab : a ≠ b) (hac : a ≠ c) (hbc : b ≠ c) : False := by
  have key : ∀ x y z : Nat, x < 7 → y < 7 → z < 7 → x < y → y < z →
      getAssignment p x e = some DayType.ON_CALL →
      getAssignment p y e = some DayType.ON_CALL →
      getAssignment p z e = some DayType.ON_CALL → False := by
    intro x y z hx hy hz hxy hyz h1 h2 h3
    exact okPair_no_triple ⟨x, hx⟩ ⟨y, hy⟩ ⟨z, hz⟩ hxy hyz
      (hp e x y hxy h1 h2) (hp e x z (Nat.lt_trans hxy hyz) h1 h3)
      (hp e y z hyz h2 h3)
  rcases Nat.lt_trichotomy a b with h1 | h1 | h1
  · rcases Nat.lt_trichotomy b c with h2 | h2 | h2
    · exact key a b c ha7 hb7 hc7 h1 h2 hOCa hOCb hOCc
    · exact hbc h2
    · rcases Nat.lt_trichotomy a c with h3 | h3 | h3
      · exact key a c b ha7 hc7 hb7 h3 h2 hOCa hOCc hOCb
      · exact hac h3
      · exact key c a b hc7 ha7 hb7 h3 h1 hOCc hOCa hOCb
  · exact hab h1
  · rcases Nat.lt_trichotomy a c with h2 | h2 | h2
    · exact key b a c hb7 ha7 hc7 h1 h2 hOCb hOCa hOCc
    · exact hac h2
    · rcases Nat.lt_trichotomy b c with h3 | h3 | h3
      · exact key b c a hb7 hc7 ha7 h3 h2 hOCb hOCc hOCa
      · exact hbc h3
      · exact key c b a hc7 hb7 ha7 h3 h1 hOCc hOCb hOCa

theorem currentOnCallCount_le_two (p : WeekPlan) (hp : PairsOk p)
    (e : String) : currentOnCallCount p e ≤ 2 := by
  rw [count_eq_filter_card]
  by_contra hgt
  push_neg at hgt
  obtain ⟨a, b, c, ha, hb, hc, hab, hac, hbc⟩ := Finset.two_lt_card_iff.1 hgt
  obtain ⟨ha7, hOCa⟩ := Finset.mem_filter.1 ha
  obtain ⟨hb7, hOCb⟩ := Finset.mem_filter.1 hb
  obtain ⟨hc7, hOCc⟩ := Finset.mem_filter.1 hc
  exact pairsOk_no_three p hp e a b c (Finset.mem_range.1 ha7)
    (Finset.mem_range.1 hb7) (Finset.mem_range.1 hc7) hOCa hOCb hOCc hab hac
    hbc

theorem checkRule2_ge_one (emps : List String) (p : WeekPlan)
    (h : checkRule2Satisfied emps p = true) (e : String) (he : e ∈ emps) :
    1 ≤ currentOnCallCount p e := by
  unfold checkRule2Satisfied at h
  rw [List.all_eq_true] at h
  have h2 := h e he
  simp at h2
  omega

theorem foldl_preserve {α : Type} (P : WeekPlan → Prop)
    (f : WeekPlan → α → WeekPlan) (hf : ∀ q a, P q → P (f q a)) :
    ∀ (l : List α) (q : WeekPlan), P q → P (l.foldl f q) := by
  intro l
  induction l with
  | nil => intro q h; exact h
  | cons x xs ih => intro q h; exact ih (f q x) (hf q x h)

theorem reset_no_oncall (emps : List String) (p : WeekPlan)
    (h0 : ∀ d e, getAssignment p d e ≠ some DayType.ON_CALL) :
    ∀ d e, getAssignment (resetAssignments emps p) d e ≠
      some DayType.ON_CALL := by
  unfold resetAssignments
  apply foldl_preserve
    (P := fun q => ∀ d e, getAssignment q d e ≠ some DayType.ON_CALL)
  · intro q day hq
    apply foldl_preserve
      (P := fun q => ∀ d e, getAssignment q d e ≠ some DayType.ON_CALL)
    · intro q2 x hq2 d e
      rw [getAssignment_set]
      split_ifs
      · simp
      · exact hq2 d e
    · exact hq
  · exact h0

theorem mandatory_no_oncall (emps : List String) (prev : List WeekPlan)
    (p : WeekPlan)
    (h0 : ∀ d e, getAssignment p d e ≠ some DayType.ON_CALL) :
    ∀ d e, getAssignment (assignMandatoryRest emps p prev) d e ≠
      some DayType.ON_CALL := by
  have hset : ∀ (q : WeekPlan) (d0 : Nat) (a : String),
      (∀ d e, getAssignment q d e ≠ some DayType.ON_CALL) →
      ∀ d e, getAssignment (setAssignment q d0 a (some DayType.REST)) d e ≠
        some DayType.ON_CALL := by
    intro q d0 a hq d e
    rw [getAssignment_set]
    split_ifs
    · simp
    · exact hq d e
  cases prev with
  | nil => exact h0
  | cons lastWeek rest =>
    unfold assignMandatoryRest
    apply foldl_preserve
      (P := fun q => ∀ d e, getAssignment q d e ≠ some DayType.ON_CALL)
    · intro q a hq
      dsimp only
      split_ifs <;>
        first
        | exact hq
        | exact hset _ _ _ hq
        | exact hset _ _ _ (hset _ _ _ hq)
        | exact hset _ _ _ (hset _ _ _ (hset _ _ _ hq))
        | exact hset _ _ _ (hset _ _ _ (hset _ _ _ (hset _ _ _ hq)))
        | exact hset _ _ _ (hset _ _ _ (hset _ _ _ (hset _ _ _
            (hset _ _ _ hq))))
        | exact hset _ _ _ (hset _ _ _ (hset _ _ _ (hset _ _ _
            (hset _ _ _ (hset _ _ _ hq)))))
    · exact h0

theorem onCallCountDay_congr_iff (emps : List String) (p q : WeekPlan)
    (k : Nat) (h : ∀ x ∈ emps,
      (getAssignment q k x = some DayType.ON_CALL ↔
        getAssignment p k x = some DayType.ON_CALL)) :
    onCallCountDay emps q k = onCallCountDay emps p k := by
  unfold onCallCountDay
  have hf : emps.filter
      (fun x => getAssignment q k x == some DayType.ON_CALL) =
      emps.filter (fun x => getAssignment p k x == some DayType.ON_CALL) := by
    apply List.filter_congr
    intro x hx
    by_cases h1 : getAssignment q k x = some DayType.ON_CALL
    · simp [h1, (h x hx).1 h1]
    · have h2 : ¬getAssignment p k x = some DayType.ON_CALL :=
        fun hh => h1 ((h x hx).2 hh)
      simp [h1, h2]
  rw [hf]

theorem currentOnCallCount_congr_iff (p q : WeekPlan) (e : String)
    (h : ∀ d < 7, (getAssignment q d e = some DayType.ON_CALL ↔
      getAssignment p d e = some DayType.ON_CALL)) :
    currentOnCallCount q e = currentOnCallCount p e := by
  unfold currentOnCallCount
  apply Finset.sum_congr rfl
  intro d hd
  by_cases h1 : getAssignment q d e = some DayType.ON_CALL
  · simp [h1, (h d (Finset.mem_range.1 hd)).1 h1]
  · have h2 : ¬getAssignment p d e = some DayType.ON_CALL :=
      fun hh => h1 ((h d (Finset.mem_range.1 hd)).2 hh)
    simp [h1, h2]

theorem fill_onCall_iff (emps : List String) (storage : List WeekPlan)
    (p : WeekPlan) : ∀ d e,
    (getAssignment (fillRemainingDays emps storage p) d e =
        some DayType.ON_CALL ↔
      getAssignment p d e = some DayType.ON_CALL) := by
  unfold fillRemainingDays
  apply foldl_preserve (P := fun q => ∀ d e,
    (getAssignment q d e = some DayType.ON_CALL ↔
      getAssignment p d e = some DayType.ON_CALL))
  · intro q day hq
    apply foldl_preserve (P := fun q => ∀ d e,
      (getAssignment q d e = some DayType.ON_CALL ↔
        getAssignment p d e = some DayType.ON_CALL))
    · intro q2 x hq2 d e
      dsimp only
      split_ifs with hnone h5 hsr
      · rw [getAssignment_set]
        split_ifs with hcell
        · simp only [beq_iff_eq] at hnone
          have hp : ¬getAssignment p d e = some DayType.ON_CALL := by
            intro hh
            have := (hq2 d e).2 hh
            rw [hcell.1, hcell.2, hnone] at this
            exact Option.noConfusion this
          simp [hp]
        · exact hq2 d e
      · rw [getAssignment_set]
        split_ifs with hcell
        · simp only [beq_iff_eq] at hnone
          have hp : ¬getAssignment p d e = some DayType.ON_CALL := by
            intro hh
            have := (hq2 d e).2 hh
            rw [hcell.1, hcell.2, hnone] at this
            exact Option.noConfusion this
          simp [hp]
        · exact hq2 d e
      · rw [getAssignment_set]
        split_ifs with hcell
        · simp only [beq_iff_eq] at hnone
          have hp : ¬getAssignment p d e = some DayType.ON_CALL := by
            intro hh
            have := (hq2 d e).2 hh
            rw [hcell.1, hcell.2, hnone] at this
            exact Option.noConfusion this
          simp [hp]
        · exact hq2 d e
      · exact hq2 d e
    · exact hq
  · intro d e
    exact Iff.rfl

theorem generateWithCsp_success (rules : List SchedulingRule)
    (emps : List String) (prev storage : List WeekPlan) (p0 : WeekPlan)
    (hnd : emps.Nodup)
    (h0 : ∀ d e, getAssignment p0 d e ≠ some DayType.ON_CALL)
    (hs : (generateWithCsp rules emps prev storage p0).1 = true) :
    (∀ d, d < 7 →
      onCallCountDay emps (generateWithCsp rules emps prev storage p0).2 d =
        1) ∧
    (∀ e ∈ emps,
      1 ≤ currentOnCallCount (generateWithCsp rules emps prev storage p0).2
          e ∧
      currentOnCallCount (generateWithCsp rules emps prev storage p0).2 e ≤
        2) := by
  have hm0 := mandatory_no_oncall emps prev (resetAssignments emps p0)
    (reset_no_oncall emps p0 h0)
  have hinv0 := searchInv_zero emps
    (assignMandatoryRest emps (resetAssignments emps p0) prev) hm0
  obtain ⟨hfr, hsucc, hfail⟩ := backtrack_spec rules emps prev hnd 8 0
    (assignMandatoryRest emps (resetAssignments emps p0) prev) (by omega)
    hinv0
  rcases hbt : (backtrackOncallAssignment rules emps prev 8 0
      (assignMandatoryRest emps (resetAssignments emps p0) prev)).1 with
    _ | _
  · exfalso
    have : (generateWithCsp rules emps prev storage p0).1 = false := by
      simp [generateWithCsp, hbt]
    rw [this] at hs
    exact Bool.noConfusion hs
  · obtain ⟨hinv7, hcheck⟩ := hsucc hbt
    obtain ⟨hno7, hone7, hpairs7, hrest7, hros7⟩ := hinv7
    have hres : (generateWithCsp rules emps prev storage p0).2 =
        fillRemainingDays emps storage
          (backtrackOncallAssignment rules emps prev 8 0
            (assignMandatoryRest emps (resetAssignments emps p0) prev)).2 := by
      simp [generateWithCsp, hbt]
    rw [hres]
    constructor
    · intro d hd
      rw [onCallCountDay_congr_iff emps _ _ d
        (fun x _ => fill_onCall_iff emps storage _ d x)]
      exact hone7 d hd
    · intro e he
      rw [currentOnCallCount_congr_iff _ _ e
        (fun d _ => fill_onCall_iff emps storage _ d e)]
      exact ⟨checkRule2_ge_one emps _ hcheck e he,
        currentOnCallCount_le_two _ hpairs7 e⟩

theorem foldl_lastMatch (pr : String → Bool) :
    ∀ (l : List String) (acc : Option String) (x : String),
      l.foldl (fun a e => if pr e then some e else a) acc = some x →
      acc = some x ∨ (pr x = true ∧ x ∈ l) := by
  intro l
  induction l with
  | nil => intro acc x h; exact Or.inl h
  | cons e rest ih =>
    intro acc x h
    rcases ih _ x h with h2 | h2
    · dsimp only at h2
      by_cases hp : pr e = true
      · rw [if_pos hp] at h2
        right
        obtain rfl : e = x := Option.some.inj h2
        exact ⟨hp, by simp⟩
      · rw [if_neg hp] at h2
        exact Or.inl h2
    · exact Or.inr ⟨h2.1, by simp [h2.2]⟩

theorem lastOnCallEmp_some (emps : List String) (p : WeekPlan) (day : Nat)
    (x : String) (h : lastOnCallEmp emps p day = some x) :
    getAssignment p day x = some DayType.ON_CALL ∧ x ∈ emps := by
  unfold lastOnCallEmp at h
  rcases foldl_lastMatch
      (fun e => getAssignment p day e == some DayType.ON_CALL) emps none x h
    with h2 | h2
  · exact Option.noConfusion h2
  · exact ⟨by simpa using h2.1, h2.2⟩

theorem getAssignment_tempCopy (emps : List String) (p : WeekPlan)
    (d : Nat) (e : String) :
    getAssignment (createTempWeekPlanCopy emps p) d e =
      if d < 7 ∧ e ∈ emps then getAssignment p d e else none := by
  unfold createTempWeekPlanCopy getAssignment
  dsimp only
  split_ifs with h
  · cases h2 : (p.assignments d e).join <;> simp [h2]
  · rfl

theorem not_onCall_of_count_le_one (emps : List String) (p : WeekPlan)
    (d : Nat) (x y : String) (hcount : onCallCountDay emps p d ≤ 1)
    (hx : x ∈ emps) (hy : y ∈ emps) (hxy : x ≠ y)
    (hOCx : getAssignment p d x = some DayType.ON_CALL) :
    getAssignment p d y ≠ some DayType.ON_CALL := by
  intro hOCy
  have h2 := two_le_filter_length emps
    (fun z => getAssignment p d z == some DayType.ON_CALL) x y hx hy hxy
    (by simp [hOCx]) (by simp [hOCy])
  unfold onCallCountDay at hcount
  omega

theorem count_after_two_updates (q p : WeekPlan) (x : String) (dA dB : Nat)
    (hA7 : dA < 7) (hB7 : dB < 7) (hAB : dA ≠ dB)
    (hqA : getAssignment q dA x ≠ some DayType.ON_CALL)
    (hqB : getAssignment q dB x = some DayType.ON_CALL)
    (hpA : getAssignment p dA x = some DayType.ON_CALL)
    (hpB : getAssignment p dB x ≠ some DayType.ON_CALL)
    (hother : ∀ d, d < 7 → d ≠ dA → d ≠ dB →
      getAssignment q d x = getAssignment p d x) :
    currentOnCallCount q x = currentOnCallCount p x := by
  unfold currentOnCallCount
  have hmA : dA ∈ Finset.range 7 := Finset.mem_range.2 hA7
  have hmB : dB ∈ (Finset.range 7).erase dA :=
    Finset.mem_erase.2 ⟨fun h => hAB h.symm, Finset.mem_range.2 hB7⟩
  have hq1 := Finset.sum_erase_add (Finset.range 7)
    (fun d => if getAssignment q d x = some DayType.ON_CALL then 1 else 0) hmA
  have hq2 := Finset.sum_erase_add ((Finset.range 7).erase dA)
    (fun d => if getAssignment q d x = some DayType.ON_CALL then 1 else 0) hmB
  have hp1 := Finset.sum_erase_add (Finset.range 7)
    (fun d => if getAssignment p d x = some DayType.ON_CALL then 1 else 0) hmA
  have hp2 := Finset.sum_erase_add ((Finset.range 7).erase dA)
    (fun d => if getAssignment p d x = some DayType.ON_CALL then 1 else 0) hmB
  have hT : ∑ d ∈ ((Finset.range 7).erase dA).erase dB,
      (if getAssignment q d x = some DayType.ON_CALL then 1 else 0) =
      ∑ d ∈ ((Finset.range 7).erase dA).erase dB,
      (if getAssignment p d x = some DayType.ON_CALL then 1 else 0) := by
    apply Finset.sum_congr rfl
    intro d hd
    obtain ⟨hdB, hd2⟩ := Finset.mem_erase.1 hd
    obtain ⟨hdA, hd3⟩ := Finset.mem_erase.1 hd2
    rw [hother d (Finset.mem_range.1 hd3) hdA hdB]
  rw [← hq1, ← hq2, ← hp1, ← hp2, hT]
  simp [hqA, hqB, hpA, hpB]

theorem compositeScore_congr (e : String) (p q : WeekPlan)
    (prev : List WeekPlan)
    (h : currentOnCallCount q e = currentOnCallCount p e) :
    compositeScore e q prev = compositeScore e p prev := by
  unfold compositeScore
  rw [h]

theorem frac_lt_sub_fifth_false (x : Frac) :
    Frac.lt x (Frac.sub x (Frac.mk' 1 5)) = false := by
  unfold Frac.lt Frac.sub Frac.mk'
  simp only [decide_eq_false_iff_not, not_lt]
  push_cast
  nlinarith [sq_nonneg ((x.den : Int))]

theorem wouldSwap_false (emps : List String) (e1 e2 : String) (d1 d2 : Nat)
    (p : WeekPlan) (prev : List WeekPlan)
    (he1 : e1 ∈ emps) (he2 : e2 ∈ emps) (hne : e1 ≠ e2)
    (hd1 : d1 < 7) (hd2 : d2 < 7) (hdd : d1 ≠ d2)
    (h11 : getAssignment p d1 e1 = some DayType.ON_CALL)
    (h22 : getAssignment p d2 e2 = some DayType.ON_CALL)
    (h21 : getAssignment p d2 e1 ≠ some DayType.ON_CALL)
    (h12 : getAssignment p d1 e2 ≠ some DayType.ON_CALL) :
    wouldSwapImproveFairness emps e1 e2 d1 d2 p prev
      (fun e => compositeScore e p prev) = false := by
  have hne2 : e2 ≠ e1 := Ne.symm hne
  have hdd2 : d2 ≠ d1 := Ne.symm hdd
  unfold wouldSwapImproveFairness
  dsimp only
  set temp := setAssignment
    (setAssignment
      (setAssignment (setAssignment (createTempWeekPlanCopy emps p) d1 e1 none)
        d2 e2 none) d1 e2 (some DayType.ON_CALL)) d2 e1
    (some DayType.ON_CALL) with htemp
  have hc1 : currentOnCallCount temp e1 = currentOnCallCount p e1 := by
    apply count_after_two_updates temp p e1 d1 d2 hd1 hd2 hdd
    · rw [htemp]; simp [getAssignment_set, hdd, hne]
    · rw [htemp]; simp [getAssignment_set]
    · exact h11
    · exact h21
    · intro d hd7 hdA hdB
      rw [htemp]
      simp [getAssignment_set, getAssignment_tempCopy, hdA, hdB, hd7, he1,
        hne]
  have hc2 : currentOnCallCount temp e2 = currentOnCallCount p e2 := by
    apply count_after_two_updates temp p e2 d2 d1 hd2 hd1 hdd2
    · rw [htemp]; simp [getAssignment_set, hdd2, hne2]
    · rw [htemp]; simp [getAssignment_set, hne2]
    · exact h22
    · exact h12
    · intro d hd7 hdA hdB
      rw [htemp]
      simp [getAssignment_set, getAssignment_tempCopy, hdA, hdB, hd7, he2,
        hne2]
  rw [compositeScore_congr e1 p temp prev hc1,
    compositeScore_congr e2 p temp prev hc2]
  exact frac_lt_sub_fifth_false _

theorem findFairnessSwap_none (rules : List SchedulingRule)
    (emps : List String) (prev : List WeekPlan) (p : WeekPlan)
    (hcnt : ∀ d, d < 7 → onCallCountDay emps p d ≤ 1) :
    findFairnessSwap rules emps prev (fun e => compositeScore e p prev) p =
      none := by
  unfold findFairnessSwap
  rw [List.findSome?_eq_none_iff]
  intro d1 hd1
  rw [List.findSome?_eq_none_iff]
  intro d2 hd2
  rw [List.mem_range] at hd1 hd2
  by_cases hdd : d1 = d2
  · rw [if_pos hdd]
  · rw [if_neg hdd]
    rcases h1 : lastOnCallEmp emps p d1 with _ | e1
    · rfl
    rcases h2 : lastOnCallEmp emps p d2 with _ | e2
    · rfl
    obtain ⟨hOC1, hm1⟩ := lastOnCallEmp_some emps p d1 e1 h1
    obtain ⟨hOC2, hm2⟩ := lastOnCallEmp_some emps p d2 e2 h2
    dsimp only
    by_cases he : e1 = e2
    · rw [if_pos he]
    · rw [if_neg he]
      have h21 : getAssignment p d2 e1 ≠ some DayType.ON_CALL :=
        not_onCall_of_count_le_one emps p d2 e2 e1 (hcnt d2 hd2) hm2 hm1
          (Ne.symm he) hOC2
      have h12 : getAssignment p d1 e2 ≠ some DayType.ON_CALL :=
        not_onCall_of_count_le_one emps p d1 e1 e2 (hcnt d1 hd1) hm1 hm2
          he hOC1
      rw [wouldSwap_false emps e1 e2 d1 d2 p prev hm1 hm2 he hd1 hd2 hdd
        hOC1 hOC2 h21 h12]
      rfl

theorem optimizeFairness_noswap (rules : List SchedulingRule)
    (emps : List String) (p : WeekPlan) (prev : List WeekPlan)
    (hcnt : ∀ d, d < 7 → onCallCountDay emps p d ≤ 1) :
    optimizeFairnessPostAssignment rules emps p prev = (p, 0) := by
  unfold optimizeFairnessPostAssignment
  cases prev with
  | nil => rfl
  | cons w rest =>
    show optimizeLoop rules emps (w :: rest) 3 p 0 = (p, 0)
    unfold optimizeLoop
    rw [findFairnessSwap_none rules emps (w :: rest) p hcnt]

theorem assignMandatoryRest_eq_foldl (emps : List String) (p : WeekPlan)
    (lw : WeekPlan) (rest : List WeekPlan) :
    assignMandatoryRest emps p (lw :: rest) = emps.foldl (mrStep lw) p := rfl

theorem getAssignment_mrStep (lw q : WeekPlan) (a : String) (d : Nat)
    (e : String) :
    getAssignment (mrStep lw q a) d e =
      if e = a ∧
          ((d = 0 ∧ (onCallMem lw 4 a = true ∨ onCallMem lw 5 a = true ∨
            onCallMem lw 6 a = true)) ∨
           (d = 1 ∧ (onCallMem lw 5 a = true ∨ onCallMem lw 6 a = true)))
      then some DayType.REST else getAssignment q d e := by
  unfold mrStep
  dsimp only
  by_cases h4 : onCallMem lw 4 a <;>
    by_cases h5 : onCallMem lw 5 a <;>
    by_cases h6 : onCallMem lw 6 a <;>
    simp only [h4, h5, h6, if_true, if_false, getAssignment_set,
      Bool.false_eq_true, Bool.true_eq_false, ite_true, ite_false] <;>
    by_cases hea : e = a <;>
    by_cases hd0 : d = 0 <;>
    by_cases hd1 : d = 1 <;>
    simp_all

theorem getAssignment_mrFold (lw : WeekPlan) (d : Nat) (e : String) :
    ∀ (emps : List String) (p : WeekPlan),
    getAssignment (emps.foldl (mrStep lw) p) d e =
      if e ∈ emps ∧
          ((d = 0 ∧ (onCallMem lw 4 e = true ∨ onCallMem lw 5 e = true ∨
            onCallMem lw 6 e = true)) ∨
           (d = 1 ∧ (onCallMem lw 5 e = true ∨ onCallMem lw 6 e = true)))
      then some DayType.REST else getAssignment p d e := by
  intro emps
  induction emps with
  | nil => intro p; simp
  | cons a as ih =>
    intro p
    rw [List.foldl_cons, ih, getAssignment_mrStep]
    by_cases hea : e = a
    · subst hea
      by_cases hC : (d = 0 ∧ (onCallMem lw 4 e = true ∨
          onCallMem lw 5 e = true ∨ onCallMem lw 6 e = true)) ∨
          (d = 1 ∧ (onCallMem lw 5 e = true ∨ onCallMem lw 6 e = true)) <;>
        simp [hC]
    · simp [hea, List.mem_cons]

theorem getAssignment_mandatoryRest (emps : List String) (p : WeekPlan)
    (lw : WeekPlan) (rest : List WeekPlan) (d : Nat) (e : String) :
    getAssignment (assignMandatoryRest emps p (lw :: rest)) d e =
      if e ∈ emps ∧
          ((d = 0 ∧ (onCallMem lw 4 e = true ∨ onCallMem lw 5 e = true ∨
            onCallMem lw 6 e = true)) ∨
           (d = 1 ∧ (onCallMem lw 5 e = true ∨ onCallMem lw 6 e = true)))
      then some DayType.REST else getAssignment p d e := by
  rw [assignMandatoryRest_eq_foldl, getAssignment_mrFold]

theorem findSome_inv {α β : Type} (f : α → Option β) :
    ∀ (l : List α) (b : β), l.findSome? f = some b →
      ∃ a ∈ l, f a = some b := by
  intro l
  induction l with
  | nil => intro b h; exact absurd h (by simp)
  | cons x xs ih =>
    intro b h
    rw [List.findSome?_cons] at h
    cases hx : f x with
    | some y =>
      rw [hx] at h
      exact ⟨x, by simp, hx.trans h⟩
    | none =>
      rw [hx] at h
      obtain ⟨a, ha, hfa⟩ := ih b h
      exact ⟨a, by simp [ha], hfa⟩

theorem findFairnessSwap_inv (rules : List SchedulingRule)
    (emps : List String) (prev : List WeekPlan) (scores : String → Frac)
    (p : WeekPlan) (e1 e2 : String) (d1 d2 : Nat)
    (h : findFairnessSwap rules emps prev scores p = some (e1, e2, d1, d2)) :
    e1 ≠ e2 ∧ d1 ≠ d2 ∧
    wouldSwapImproveFairness emps e1 e2 d1 d2 p prev scores = true ∧
    canSwapSafely rules e1 e2 d1 d2 p prev = true := by
  unfold findFairnessSwap at h
  obtain ⟨a1, ha1m, h1⟩ := findSome_inv _ _ _ h
  obtain ⟨a2, ha2m, h2⟩ := findSome_inv _ _ _ h1
  by_cases hdd : a1 = a2
  · rw [if_pos hdd] at h2; exact absurd h2 (by simp)
  · rw [if_neg hdd] at h2
    rcases hl1 : lastOnCallEmp emps p a1 with _ | f1 <;> rw [hl1] at h2
    · exact absurd h2 (by simp)
    rcases hl2 : lastOnCallEmp emps p a2 with _ | f2 <;> rw [hl2] at h2
    · exact absurd h2 (by simp)
    dsimp only at h2
    by_cases hff : f1 = f2
    · rw [if_pos hff] at h2; exact absurd h2 (by simp)
    · rw [if_neg hff] at h2
      by_cases hacc : (wouldSwapImproveFairness emps f1 f2 a1 a2 p prev
          scores && canSwapSafely rules f1 f2 a1 a2 p prev) = true
      · rw [if_pos hacc] at h2
        obtain ⟨hb1, hb2⟩ := Bool.and_eq_true_iff.1 hacc
        have hp := Option.some.inj h2
        have he1 : f1 = e1 := congrArg Prod.fst hp
        have he2 : f2 = e2 := congrArg (fun x => x.2.1) hp
        have hda : a1 = d1 := congrArg (fun x => x.2.2.1) hp
        have hdb : a2 = d2 := congrArg (fun x => x.2.2.2) hp
        subst he1; subst he2; subst hda; subst hdb
        exact ⟨hff, hdd, hb1, hb2⟩
      · rw [if_neg hacc] at h2
        exact absurd h2 (by simp)

theorem optimizeLoop_made_le (rules : List SchedulingRule)
    (emps : List String) (prev : List WeekPlan) :
    ∀ (n : Nat) (p : WeekPlan) (made : Nat),
      (optimizeLoop rules emps prev n p made).2 ≤ made + n := by
  intro n
  induction n with
  | zero => intro p made; simp [optimizeLoop]
  | succ k ih =>
    intro p made
    unfold optimizeLoop
    cases h : findFairnessSwap rules emps prev
        (fun e => compositeScore e p prev) p with
    | none => dsimp only; omega
    | some t =>
      obtain ⟨e1, e2, d1, d2⟩ := t
      have hk := ih (performOncallSwap e1 e2 d1 d2 p) (made + 1)
      dsimp only
      omega

theorem optimizeFairness_le_three (rules : List SchedulingRule)
    (emps : List String) (p : WeekPlan) (prev : List WeekPlan) :
    (optimizeFairnessPostAssignment rules emps p prev).2 ≤ 3 := by
  unfold optimizeFairnessPostAssignment
  cases prev with
  | nil => simp
  | cons w rest => exact optimizeLoop_made_le rules emps (w :: rest) 3 p 0

theorem fillRemainingDays_congr (emps : List String) (s1 s2 : List WeekPlan)
    (hss : ∀ e d q, shouldAssignRestInsteadOfWork s1 e d q =
      shouldAssignRestInsteadOfWork s2 e d q) (p : WeekPlan) :
    fillRemainingDays emps s1 p = fillRemainingDays emps s2 p := by
  unfold fillRemainingDays
  congr 1
  funext q day
  congr 1
  funext q2 e
  rw [hss]

theorem generateWeek_storage_congr (emps : List String)
    (rulesIn : List SchedulingRule) (w : Nat) (prev s1 s2 : List WeekPlan)
    (t : String)
    (hss : ∀ e d q, shouldAssignRestInsteadOfWork s1 e d q =
      shouldAssignRestInsteadOfWork s2 e d q) :
    generateWeek emps rulesIn w prev s1 t =
      generateWeek emps rulesIn w prev s2 t := by
  have hfill := fillRemainingDays_congr emps s1 s2 hss
  unfold generateWeek generateWithCsp
  simp only [hfill]

/-! ### The claims -/

theorem generateWeek_eq_csp (emps : List String)
    (rulesIn : List SchedulingRule) (w : Nat) (prev storage : List WeekPlan)
    (t : String)
    (hs : (generateWithCsp (sortRulesByPriority rulesIn) emps prev storage
      (emptyPlan w t ((sortRulesByPriority rulesIn).map fun r =>
        r.name))).1 = true) :
    generateWeek emps rulesIn w prev storage t =
      (generateWithCsp (sortRulesByPriority rulesIn) emps prev storage
        (emptyPlan w t ((sortRulesByPriority rulesIn).map fun r =>
          r.name))).2 := by
  unfold generateWeek
  dsimp only
  split_ifs with h
  · rfl
  · exact absurd hs h

/-- Claim C1 (amended): when the CSP search succeeds, the plan returned by
`generate_week` has exactly one on-call employee on every day 0..6.  (The
original claim fails: when the search fails, `generate_week` falls back to
the heuristic phases, whose result is returned without any degraded flag
and can leave days with no on-call employee.) -/
theorem generateWeek_csp_one_oncall_per_day (emps : List String)
    (rulesIn : List SchedulingRule) (w : Nat) (prev storage : List WeekPlan)
    (t : String) (hnd : emps.Nodup)
    (hs : (generateWithCsp (sortRulesByPriority rulesIn) emps prev storage
      (emptyPlan w t ((sortRulesByPriority rulesIn).map fun r =>
        r.name))).1 = true) :
    ∀ d, d < 7 →
      onCallCountDay emps (generateWeek emps rulesIn w prev storage t) d =
        1 := by
  intro d hd
  rw [generateWeek_eq_csp emps rulesIn w prev storage t hs]
  exact (generateWithCsp_success (sortRulesByPriority rulesIn) emps prev
    storage _ hnd (fun _ _ h => Option.noConfusion h) hs).1 d hd

set_option maxRecDepth 100000 in
theorem generateWeek_csp_one_oncall_per_day_witness :
    onCallCountDay ["A", "B", "C", "D"]
      (generateWeek ["A", "B", "C", "D"] DEFAULT_RULES 100 [] [] "t") 3 =
      1 :=
  generateWeek_csp_one_oncall_per_day ["A", "B", "C", "D"] DEFAULT_RULES
    100 [] [] "t" (by decide) (by decide) 3 (by decide)

set_option maxRecDepth 100000 in
theorem fallback_day_without_oncall :
    onCallCountDay ["A", "B"]
      (generateWeek ["A", "B"] DEFAULT_RULES 100 [] [] "t") 5 = 0 := by
  decide

/-- Claim C2 (amended): when the CSP search succeeds, every roster employee
holds ON_CALL on at least 1 and at most 2 days of the returned plan.  (The
original claim fails on the fallback path, which is returned without any
degraded flag: with a two-employee roster, employee `A` ends with 3 on-call
days.) -/
theorem generateWeek_csp_count_bounds (emps : List String)
    (rulesIn : List SchedulingRule) (w : Nat) (prev storage : List WeekPlan)
    (t : String) (hnd : emps.Nodup)
    (hs : (generateWithCsp (sortRulesByPriority rulesIn) emps prev storage
      (emptyPlan w t ((sortRulesByPriority rulesIn).map fun r =>
        r.name))).1 = true) :
    ∀ e ∈ emps,
      1 ≤ currentOnCallCount (generateWeek emps rulesIn w prev storage t)
          e ∧
      currentOnCallCount (generateWeek emps rulesIn w prev storage t) e ≤
        2 := by
  intro e he
  rw [generateWeek_eq_csp emps rulesIn w prev storage t hs]
  exact (generateWithCsp_success (sortRulesByPriority rulesIn) emps prev
    storage _ hnd (fun _ _ h => Option.noConfusion h) hs).2 e he

set_option maxRecDepth 100000 in
theorem generateWeek_csp_count_bounds_witness :
    1 ≤ currentOnCallCount
        (generateWeek ["A", "B", "C", "D"] DEFAULT_RULES 100 [] [] "t")
        "A" ∧
    currentOnCallCount
        (generateWeek ["A", "B", "C", "D"] DEFAULT_RULES 100 [] [] "t")
        "A" ≤ 2 :=
  generateWeek_csp_count_bounds ["A", "B", "C", "D"] DEFAULT_RULES 100 []
    [] "t" (by decide) (by decide) "A" (by decide)

set_option maxRecDepth 100000 in
theorem fallback_three_oncall_days :
    currentOnCallCount
      (generateWeek ["A", "B"] DEFAULT_RULES 100 [] [] "t") "A" = 3 := by
  decide

/-- Claim C3 (amended): before the search begins `_assign_mandatory_rest`
writes exactly the REST cells of the carryover table (Friday on-call →
Monday REST; Saturday/Sunday on-call → Monday and Tuesday REST) and nothing
else; the mandatory WORK cells are NOT written into the plan — they are only
guarded, in that the CSP candidate test refuses ON_CALL on them.  (The
original claim fails: no WORK value is ever written before the search.) -/
theorem mandatory_cells_pre_search (emps : List String) (p : WeekPlan)
    (lw : WeekPlan) (rest : List WeekPlan) (d : Nat) (e : String) :
    (getAssignment (assignMandatoryRest emps p (lw :: rest)) d e =
      if e ∈ emps ∧
          ((d = 0 ∧ (onCallMem lw 4 e = true ∨ onCallMem lw 5 e = true ∨
            onCallMem lw 6 e = true)) ∨
           (d = 1 ∧ (onCallMem lw 5 e = true ∨ onCallMem lw 6 e = true)))
      then some DayType.REST else getAssignment p d e) ∧
    (∀ (rules : List SchedulingRule) (emps2 : List String) (e2 : String)
      (day : Nat) (p2 : WeekPlan) (prev2 : List WeekPlan),
      canAssignOncallCsp rules emps2 e2 day p2 prev2 = true →
      isMandatoryWork e2 day prev2 = false) := by
  refine ⟨getAssignment_mandatoryRest emps p lw rest d e, ?_⟩
  intro rules emps2 e2 day p2 prev2 h
  simp only [canAssignOncallCsp, Bool.and_eq_true, Bool.not_eq_true'] at h
  exact h.1.2

theorem mandatory_cells_pre_search_witness :
    getAssignment (assignMandatoryRest ["A"] (emptyPlan 100 "t" [])
      [planFriA]) 0 "A" = some DayType.REST ∧
    isMandatoryWork "A" 0 [emptyPlan 93 "s" []] = false :=
  ⟨by
    rw [(mandatory_cells_pre_search ["A"] (emptyPlan 100 "t" []) planFriA []
      0 "A").1]
    decide,
   (mandatory_cells_pre_search ["A"] (emptyPlan 100 "t" [])
      (emptyPlan 93 "s" []) [] 0 "A").2 DEFAULT_RULES ["A"] "A" 0
     (emptyPlan 100 "t" []) [emptyPlan 93 "s" []] (by decide)⟩

set_option maxRecDepth 100000 in
theorem mandatory_work_cell_not_written :
    onCallMem planThuA 3 "A" = true ∧
    getAssignment (assignMandatoryRest ["A"]
      (resetAssignments ["A"] (emptyPlan 100 "t" [])) [planThuA]) 0 "A" =
      none := by
  decide

/-- Claim C4: started on an on-call-free plan, the backtracking solver
declares success only with a complete assignment — every day 0..6 has
exactly one on-call employee and `_check_rule2_satisfied` holds, so every
roster employee has at least one on-call day — and on failure it returns
the plan with every tentative on-call assignment removed (no partial
answer). -/
theorem backtrack_complete_or_restores (rules : List SchedulingRule)
    (emps : List String) (prev : List WeekPlan) (p : WeekPlan)
    (hnd : emps.Nodup) (hinv : SearchInv emps p 0) :
    ((backtrackOncallAssignment rules emps prev 8 0 p).1 = true →
      checkRule2Satisfied emps
          (backtrackOncallAssignment rules emps prev 8 0 p).2 = true ∧
      (∀ e ∈ emps, 1 ≤ currentOnCallCount
        (backtrackOncallAssignment rules emps prev 8 0 p).2 e) ∧
      (∀ d, d < 7 → onCallCountDay emps
        (backtrackOncallAssignment rules emps prev 8 0 p).2 d = 1)) ∧
    ((backtrackOncallAssignment rules emps prev 8 0 p).1 = false →
      ∀ d e, getAssignment
        (backtrackOncallAssignment rules emps prev 8 0 p).2 d e ≠
          some DayType.ON_CALL) := by
  obtain ⟨hfr, hsucc, hfail⟩ := backtrack_spec rules emps prev hnd 8 0 p
    (by omega) hinv
  constructor
  · intro ht
    obtain ⟨hinv7, hcheck⟩ := hsucc ht
    exact ⟨hcheck, fun e he => checkRule2_ge_one emps _ hcheck e he,
      fun d hd => hinv7.2.1 d hd⟩
  · intro hf
    exact fun d e => (hfail hf).1 d (Nat.zero_le d) e

set_option maxRecDepth 100000 in
theorem backtrack_complete_or_restores_witness :
    checkRule2Satisfied ["A", "B", "C", "D"]
      (backtrackOncallAssignment DEFAULT_RULES ["A", "B", "C", "D"] [] 8 0
        (emptyPlan 100 "t" [])).2 = true :=
  ((backtrack_complete_or_restores DEFAULT_RULES ["A", "B", "C", "D"] []
      (emptyPlan 100 "t" []) (by decide)
      (searchInv_zero ["A", "B", "C", "D"] (emptyPlan 100 "t" [])
        (fun _ _ h => Option.noConfusion h))).1 (by decide)).1

/-- Claim C5: the same-week rest window written immediately after an
ON_CALL assignment on day `d` is exactly the table Mon→Tue, Tue→Wed,
Wed→Thu, Thu→Fri+Sat+Sun, Fri→Sat+Sun, Sat→Sun, Sun→nothing: the assigned
cell holds ON_CALL, the window cells hold REST, and no other cell of the
plan changes. -/
theorem assignRest_writes_exact_window (p : WeekPlan) (e : String)
    (d d' : Nat) (e' : String) :
    (restWindow 0 = [1] ∧ restWindow 1 = [2] ∧ restWindow 2 = [3] ∧
     restWindow 3 = [4, 5, 6] ∧ restWindow 4 = [5, 6] ∧
     restWindow 5 = [6] ∧ restWindow 6 = []) ∧
    getAssignment (assignRestAfterOncall
        (setAssignment p d e (some DayType.ON_CALL)) e d) d' e' =
      (if e' = e ∧ d' ∈ restWindow d then some DayType.REST
       else if d' = d ∧ e' = e then some DayType.ON_CALL
       else getAssignment p d' e') :=
  ⟨⟨rfl, rfl, rfl, rfl, rfl, rfl, rfl⟩, getAssignment_assignOc p e d d' e'⟩

/-- Claim C6 (code bug): the rule catalog has NO rule forbidding weekend
on-call in two consecutive weeks.  The only rule with priority in 85..88 is
the Thursday extended-rest rule, and a weekend-to-weekend scenario —
employee `A` on-call on Saturday of the previous week, assigned ON_CALL on
Sunday of the current week — passes every rule of the catalog. -/
theorem no_consecutive_weekend_rule_missing :
    ((DEFAULT_RULES.filter fun r =>
        85 ≤ r.priority && r.priority ≤ 88).map fun r => r.name) =
      ["Thursday On-Call Extended Rest"] ∧
    onCallMem planSatA 5 "A" = true ∧
    validateAssignment DEFAULT_RULES "A" 6 DayType.ON_CALL
      (emptyPlan 100 "t" []) [planSatA] = true := by
  decide

/-- Claim C7 (amended): `generate_week` performs no input validation at
all — an empty roster is not rejected: the call returns the fresh plan with
the requested week start and metadata and no assignments, rather than
raising an error.  (Duplicate rosters and non-Monday week starts are
likewise processed normally; see the counterexample.) -/
theorem generateWeek_accepts_empty_roster (rulesIn : List SchedulingRule)
    (w : Nat) (prev storage : List WeekPlan) (t : String) :
    generateWeek [] rulesIn w prev storage t =
      emptyPlan w t ((sortRulesByPriority rulesIn).map fun r => r.name) := by
  cases prev <;> rfl

set_option maxRecDepth 100000 in
theorem invalid_inputs_produce_schedules :
    onCallCountDay ["A", "A"]
      (generateWeek ["A", "A"] DEFAULT_RULES 100 [] [] "t") 0 = 2 ∧
    (generateWeek [] DEFAULT_RULES 100 [] [] "t").weekStart = 100 ∧
    (generateWeek ["A", "B", "C"] DEFAULT_RULES 101 [] [] "t").weekStart =
      101 := by
  decide

/-- Claim C8 (amended): `generate_week` is deterministic only once the
stored `plan.json` contents are counted among its inputs: two calls with
identical roster, rules, week start, history AND stored plans agree — the
output depends on the storage only through the
`_should_assign_rest_instead_of_work` lookup — but two calls with identical
arguments and different stored plans can differ (see the
counterexample). -/
theorem generateWeek_storage_determinism (emps : List String)
    (rulesIn : List SchedulingRule) (w : Nat) (prev s1 s2 : List WeekPlan)
    (t : String)
    (hss : ∀ e d q, shouldAssignRestInsteadOfWork s1 e d q =
      shouldAssignRestInsteadOfWork s2 e d q) :
    generateWeek emps rulesIn w prev s1 t =
      generateWeek emps rulesIn w prev s2 t :=
  generateWeek_storage_congr emps rulesIn w prev s1 s2 t hss

theorem generateWeek_storage_determinism_witness :
    generateWeek ["A"] DEFAULT_RULES 100 [] [emptyPlan 0 "" []] "t" =
      generateWeek ["A"] DEFAULT_RULES 100 [] [emptyPlan 0 "x" []] "t" :=
  generateWeek_storage_determinism ["A"] DEFAULT_RULES 100 []
    [emptyPlan 0 "" []] [emptyPlan 0 "x" []] "t" (fun e d q => by
      unfold shouldAssignRestInsteadOfWork loadPreviousWeeks
      by_cases h : (0 : Nat) < q.weekStart <;>
        simp [List.filter, h, stableSortBy, stableInsert, emptyPlan,
          onCallMem, getAssignment])

set_option maxRecDepth 100000 in
theorem generateWeek_reads_stored_plans :
    getAssignment
      (generateWeek ["A", "B"] DEFAULT_RULES 100 [] [] "t") 0 "B" =
      some DayType.WORK ∧
    getAssignment
      (generateWeek ["A", "B"] DEFAULT_RULES 100 [] [storedFriB] "t") 0
      "B" = some DayType.REST := by
  decide

/-- Claim C9: the fairness optimizer accepts a swap of two days' on-call
employees only if the simulated swap shrinks the absolute score gap by more
than 0.2 (`_would_swap_improve_fairness`) and both new on-call assignments
validate against every rule (`_can_swap_safely`), the two employees and
days being distinct; and the optimizer performs at most 3 accepted swaps
before terminating. -/
theorem fairness_swap_acceptance (rules : List SchedulingRule)
    (emps : List String) (prev : List WeekPlan) (scores : String → Frac)
    (p q : WeekPlan) (e1 e2 : String) (d1 d2 : Nat)
    (h : findFairnessSwap rules emps prev scores p =
      some (e1, e2, d1, d2)) :
    wouldSwapImproveFairness emps e1 e2 d1 d2 p prev scores = true ∧
    canSwapSafely rules e1 e2 d1 d2 p prev = true ∧ e1 ≠ e2 ∧ d1 ≠ d2 ∧
    (optimizeFairnessPostAssignment rules emps q prev).2 ≤ 3 := by
  obtain ⟨hne, hdd, hw, hc⟩ := findFairnessSwap_inv rules emps prev scores
    p e1 e2 d1 d2 h
  exact ⟨hw, hc, hne, hdd, optimizeFairness_le_three rules emps q prev⟩

set_option maxRecDepth 100000 in
theorem fairness_swap_acceptance_witness :
    wouldSwapImproveFairness ["A", "B"] "A" "B" 0 4 swapDemoPlan
      [emptyPlan 93 "s" []]
      (fun e => compositeScore e swapDemoPlan [emptyPlan 93 "s" []]) =
      true ∧
    canSwapSafely (sortRulesByPriority DEFAULT_RULES) "A" "B" 0 4
      swapDemoPlan [emptyPlan 93 "s" []] = true ∧
    "A" ≠ "B" ∧ (0 : Nat) ≠ 4 ∧
    (optimizeFairnessPostAssignment (sortRulesByPriority DEFAULT_RULES)
      ["A", "B"] swapDemoPlan [emptyPlan 93 "s" []]).2 ≤ 3 :=
  fairness_swap_acceptance (sortRulesByPriority DEFAULT_RULES) ["A", "B"]
    [emptyPlan 93 "s" []]
    (fun e => compositeScore e swapDemoPlan [emptyPlan 93 "s" []])
    swapDemoPlan swapDemoPlan "A" "B" 0 4 (by decide)

/-- Claim C10 (amended): for every employee and day 0..6, if the cell is
ABSENT from the assignment dict, `get_employee_schedule` reports WORK at
that position.  (The original claim — conditioned on `get_assignment`
returning None — fails: a cell holding a STORED None also makes
`get_assignment` return None, yet `get_employee_schedule` reports the
stored None, not WORK.) -/
theorem schedule_reports_work_when_absent (p : WeekPlan) (e : String)
    (d : Nat) (habs : p.assignments d e = none) (hd : d < 7) :
    (getEmployeeSchedule p e)[d]? = some (some DayType.WORK) := by
  unfold getEmployeeSchedule
  rw [List.getElem?_map, List.getElem?_range hd]
  simp [habs]

theorem schedule_reports_work_when_absent_witness :
    (getEmployeeSchedule (emptyPlan 100 "t" []) "A")[2]? =
      some (some DayType.WORK) :=
  schedule_reports_work_when_absent (emptyPlan 100 "t" []) "A" 2 rfl
    (by decide)

theorem stored_none_not_reported_work :
    getAssignment (setAssignment (emptyPlan 100 "t" []) 0 "A" none) 0
      "A" = none ∧
    (getEmployeeSchedule (setAssignment (emptyPlan 100 "t" []) 0 "A" none)
      "A")[0]? = some none := by
  decide

end SevensRain
